import Mathlib

/-!
Verification development for the feature-computation and data-acquisition layer
of the regime-adaptive statistical-arbitrage repository.

The embedding models pandas/numpy float cells as an exact datatype `Cell`:
a finite value carries a rational payload, and the special values `nan`,
`pinf` (+infinity) and `ninf` (-infinity) are explicit constructors, so that
undefined/missing propagation ("NaN") and the infinity-cleaning step of the
source are captured exactly.  String-valued cells (the `ticker` column) are
carried by `str`.

Two source operations are irrational-valued: `np.log` and the rolling standard
deviation (`sqrt` of the sample variance).  No verified claim depends on the
numeric magnitude of those cells — only on their definedness (NaN-ness),
finiteness, and zero-ness.  They are therefore modelled by strictly monotone
rational stand-ins that have exactly the same definedness, sign and zero-ness
as the source values:
  * `npLog` classifies its argument the way `np.log` does (negative → NaN,
    zero → -inf, positive → finite) and carries the argument itself as the
    finite payload;
  * the rolling standard deviation carries the sample variance (the square of
    the source's std) as its payload; the annualization `* sqrt(252)` of the
    source therefore becomes `* 252` on the payload.
-/

/-- A pandas/numpy cell value: finite rational, +inf, -inf, NaN, or a string
label (used by the `ticker` column). -/
inductive Cell where
  | num (q : ℚ)
  | pinf
  | ninf
  | nan
  | str (s : String)
deriving DecidableEq, Repr, Inhabited

namespace Cell

/-- NaN test.  String cells are not NaN (pandas object cells). -/
def isNan : Cell → Bool
  | .nan => true
  | _ => false

/-- Infinity test (either sign). -/
def isInf : Cell → Bool
  | .pinf => true
  | .ninf => true
  | _ => false

/-- Finite numeric test. -/
def isNum : Cell → Bool
  | .num _ => true
  | _ => false

/-- IEEE-style addition on cells; any non-numeric operand (NaN or string)
poisons the result to NaN, `+inf + -inf = NaN`. -/
def cadd : Cell → Cell → Cell
  | .num a, .num b => .num (a + b)
  | .num _, .pinf => .pinf
  | .num _, .ninf => .ninf
  | .pinf, .num _ => .pinf
  | .ninf, .num _ => .ninf
  | .pinf, .pinf => .pinf
  | .ninf, .ninf => .ninf
  | _, _ => .nan

/-- IEEE-style negation. -/
def cneg : Cell → Cell
  | .num a => .num (-a)
  | .pinf => .ninf
  | .ninf => .pinf
  | _ => .nan

/-- IEEE-style subtraction. -/
def csub (a b : Cell) : Cell := cadd a (cneg b)

/-- IEEE-style multiplication; `0 * inf = NaN`. -/
def cmul : Cell → Cell → Cell
  | .num a, .num b => .num (a * b)
  | .num a, .pinf => if a = 0 then .nan else if 0 < a then .pinf else .ninf
  | .num a, .ninf => if a = 0 then .nan else if 0 < a then .ninf else .pinf
  | .pinf, .num b => if b = 0 then .nan else if 0 < b then .pinf else .ninf
  | .ninf, .num b => if b = 0 then .nan else if 0 < b then .ninf else .pinf
  | .pinf, .pinf => .pinf
  | .pinf, .ninf => .ninf
  | .ninf, .pinf => .ninf
  | .ninf, .ninf => .pinf
  | _, _ => .nan

/-- IEEE-style division as numpy performs it: `x/0` is a signed infinity for
`x ≠ 0`, `0/0 = NaN`, `inf/inf = NaN`, `x/inf = 0`. -/
def cdiv : Cell → Cell → Cell
  | .num a, .num b =>
      if b = 0 then (if a = 0 then .nan else if 0 < a then .pinf else .ninf)
      else .num (a / b)
  | .num _, .pinf => .num 0
  | .num _, .ninf => .num 0
  | .pinf, .num b => if 0 ≤ b then .pinf else .ninf
  | .ninf, .num b => if 0 ≤ b then .ninf else .pinf
  | _, _ => .nan

/-- The infinity-cleaning step of the source
(`df.replace([np.inf, -np.inf], np.nan)`): both infinities become NaN and
every other cell is untouched. -/
def fixInf : Cell → Cell
  | .pinf => .nan
  | .ninf => .nan
  | c => c

/-- `Series.replace(0, np.nan)` on one cell (used on the rolling std before
dividing, so a zero std yields NaN instead of an infinity). -/
def replaceZero (c : Cell) : Cell :=
  if c = .num 0 then .nan else c

/-- `np.log` classified exactly (negative → NaN, zero → -inf, positive →
finite); the finite payload is a strictly monotone stand-in for the true
logarithm (see module docstring). -/
def npLog : Cell → Cell
  | .num q => if q = 0 then .ninf else if 0 < q then .num q else .nan
  | .pinf => .pinf
  | .ninf => .nan
  | _ => .nan

end Cell

/-- Column labels of the data model.  Window-indexed feature labels
(`mom_{w}`, `rv_{w}`, `vov_{w}`, `z_ret_{w}`) are represented structurally so
that distinct windows give distinct labels; `other` covers any label outside
the modelled vocabulary. -/
inductive ColName where
  | date | ticker
  | openCol | high | low | close | adj_close | adjusted_close | volume
  | ret | logret
  | mom (w : ℕ) | rv (w : ℕ) | vov (w : ℕ) | z_ret (w : ℕ)
  | other (s : String)
deriving DecidableEq, Repr

/-- Association-list lookup of a column by name (first match). -/
def getPairs : List (ColName × List Cell) → ColName → Option (List Cell)
  | [], _ => none
  | p :: rest, c => if p.1 = c then some p.2 else getPairs rest c

/-- Column assignment with pandas semantics: overwrite the (first) existing
column with that name in place, else append a new column at the end. -/
def setPairs : List (ColName × List Cell) → ColName → List Cell → List (ColName × List Cell)
  | [], c, v => [(c, v)]
  | p :: rest, c, v => if p.1 = c then (c, v) :: rest else p :: setPairs rest c v

/-- A DataFrame: an ordered list of named columns of cells. -/
structure Frame where
  cols : List (ColName × List Cell)
deriving DecidableEq, Repr

namespace Frame

/-- The empty DataFrame (`pd.DataFrame()`). -/
def emptyFrame : Frame := ⟨[]⟩

instance : Inhabited Frame := ⟨emptyFrame⟩

def getCol (f : Frame) (c : ColName) : Option (List Cell) :=
  getPairs f.cols c

def setCol (f : Frame) (c : ColName) (v : List Cell) : Frame :=
  ⟨setPairs f.cols c v⟩

def names (f : Frame) : List ColName :=
  f.cols.map (·.1)

def hasCol (f : Frame) (c : ColName) : Bool :=
  (f.getCol c).isSome

/-- Number of rows (length of the leading column; all columns agree on
well-formed frames, see `WF`). -/
def nrows (f : Frame) : ℕ :=
  match f.cols with
  | [] => 0
  | p :: _ => p.2.length

/-- `df.empty`: true when either axis has length zero. -/
def isEmpty (f : Frame) : Bool :=
  f.cols.isEmpty || f.nrows == 0

/-- Well-formedness: every column has the same number of rows. -/
def WF (f : Frame) : Prop :=
  ∀ p ∈ f.cols, p.2.length = f.nrows

/-- Apply a function to every cell (used for the final infinity cleanup). -/
def mapCells (g : Cell → Cell) (f : Frame) : Frame :=
  ⟨f.cols.map (fun p => (p.1, p.2.map g))⟩

/-- Total ordering used by `sort_values('Date')`: -inf < finite < +inf,
NaN sorted last (pandas default `na_position='last'`); string cells compare
lexicographically among themselves and sit between numerics and NaN. -/
def cellLe (a b : Cell) : Bool :=
  let rank : Cell → ℕ := fun c =>
    match c with
    | .ninf => 0
    | .num _ => 1
    | .pinf => 2
    | .str _ => 3
    | .nan => 4
  match a, b with
  | .num x, .num y => decide (x ≤ y)
  | .str x, .str y => decide (x < y) || decide (x = y)
  | _, _ => decide (rank a ≤ rank b)

/-- The row permutation applied by `sort_values('Date')`: the row indices in
ascending order of their `Date` cell. -/
def sortPerm (f : Frame) : List ℕ :=
  let d := (f.getCol .date).getD []
  List.insertionSort
    (fun i j => cellLe (d.getD i .nan) (d.getD j .nan) = true) (List.range d.length)

/-- Reindex one column by a row permutation. -/
def permuteCol (perm : List ℕ) (v : List Cell) : List Cell :=
  perm.map (fun i => v.getD i .nan)

/-- `df.sort_values('Date').reset_index(drop=True)`: permute all rows so that
the `Date` column is ascending.  A stable sort is used; the source's quicksort
only differs from it on tied dates, which no verified claim depends on. -/
def sortByDate (f : Frame) : Frame :=
  ⟨f.cols.map (fun p => (p.1, permuteCol (sortPerm f) p.2))⟩

end Frame

/-! ## Rolling-window series combinators (pandas semantics)

A series is a list of cells; `rolling(window=w)` at row `i` sees the slice of
rows `max(0, i-w+1) .. i`.  `min_periods` counts the non-NaN observations in
the slice.  The sample standard deviation (pandas default `ddof=1`) is NaN on
fewer than two observations even when `min_periods = 1`, and NaN whenever an
infinity is in the window. -/

/-- The trailing window of width `w` ending at row `i`. -/
def winSlice (xs : List Cell) (w i : ℕ) : List Cell :=
  (xs.take (i + 1)).drop (i + 1 - w)

/-- Number of non-NaN observations in a window (what `min_periods` counts). -/
def nonNanCount (cells : List Cell) : ℕ :=
  (cells.filter (fun c => !c.isNan)).length

/-- Whether the window contains an infinity of either sign. -/
def hasInf (cells : List Cell) : Bool :=
  cells.any (fun c => c.isInf)

/-- The finite rational observations of a window. -/
def obsList (cells : List Cell) : List ℚ :=
  cells.filterMap (fun c => match c with | .num q => some q | _ => none)

/-- Sample variance with `ddof = 1` (guarded by the callers to `n ≥ 2`). -/
def sampleVarQ (qs : List ℚ) : ℚ :=
  let n : ℚ := qs.length
  let mu := qs.sum / n
  ((qs.map (fun q => (q - mu) ^ 2)).sum) / (n - 1)

/-- One rolling-mean aggregation step. -/
def aggMean (minp : ℕ) (cells : List Cell) : Cell :=
  if nonNanCount cells < minp then .nan
  else if cells.any (fun c => c = .pinf) && cells.any (fun c => c = .ninf) then .nan
  else if cells.any (fun c => c = .pinf) then .pinf
  else if cells.any (fun c => c = .ninf) then .ninf
  else .num ((obsList cells).sum / (nonNanCount cells : ℚ))

/-- One rolling-std aggregation step.  The finite payload is the sample
variance — the square of the source's standard deviation — which has the same
definedness, sign and zero-ness (see module docstring). -/
def aggStd (minp : ℕ) (cells : List Cell) : Cell :=
  if nonNanCount cells < minp then .nan
  else if hasInf cells then .nan
  else if nonNanCount cells < 2 then .nan
  else .num (sampleVarQ (obsList cells))

/-- `xs.rolling(window=w, min_periods=minp).mean()`. -/
def rollingMean (w minp : ℕ) (xs : List Cell) : List Cell :=
  (List.range xs.length).map (fun i => aggMean minp (winSlice xs w i))

/-- `xs.rolling(window=w, min_periods=minp).std()` (payload convention of
`aggStd`). -/
def rollingStd (w minp : ℕ) (xs : List Cell) : List Cell :=
  (List.range xs.length).map (fun i => aggStd minp (winSlice xs w i))

/-- `Series.pct_change(periods=k)`: `x[i]/x[i-k] - 1`, NaN for the first `k`
rows. -/
def pctChange (k : ℕ) (p : List Cell) : List Cell :=
  (List.range p.length).map (fun i =>
    if i < k then .nan
    else Cell.csub (Cell.cdiv (p.getD i .nan) (p.getD (i - k) .nan)) (.num 1))

/-- `Series.diff()`: `x[i] - x[i-1]`, NaN at row 0. -/
def diffList (xs : List Cell) : List Cell :=
  (List.range xs.length).map (fun i =>
    if i = 0 then .nan
    else Cell.csub (xs.getD i .nan) (xs.getD (i - 1) .nan))

/-! ## `src/features/featurize.py` -/

/-- Error values raised by the feature module (`KeyError` on a missing
column, the pandas `min_periods must be <= window` `ValueError`, the pivot
duplicate-entry `ValueError`, and the explicit missing-ticker `KeyError` of
`rolling_pairwise_correlation`). -/
inductive FeatError where
  | keyError (c : ColName)
  | badWindow
  | valueErrorPivot
  | keyErrorTickers (l r : String)
deriving DecidableEq, Repr

/-- `_price_col`: prefer `adj_close`, else `adjusted_close`, else `close`. -/
def price_col (df : Frame) : ColName :=
  if df.hasCol .adj_close then .adj_close
  else if df.hasCol .adjusted_close then .adjusted_close
  else .close

/-- `min_periods` used by every rolling feature: `max(1, w // 2)`. -/
def minPeriods (w : ℕ) : ℕ := max 1 (w / 2)

/-- The feature computed for one window, as pure functions of the (sorted)
price series: `ret`. -/
def retS (p : List Cell) : List Cell := pctChange 1 p

/-- `logret = np.log(price).diff()`. -/
def logretS (p : List Cell) : List Cell := diffList (p.map Cell.npLog)

/-- `mom_w = price.pct_change(periods=w)`. -/
def momS (p : List Cell) (w : ℕ) : List Cell := pctChange w p

/-- `rv_w = logret.rolling(w, min_periods=max(1, w//2)).std() * np.sqrt(252)`;
on the variance payload the annualization is `* 252`. -/
def rvS (p : List Cell) (w : ℕ) : List Cell :=
  (rollingStd w (minPeriods w) (logretS p)).map (fun c => Cell.cmul c (.num 252))

/-- `vov_w = rv_w.rolling(w, min_periods=max(1, w//2)).std()`. -/
def vovS (p : List Cell) (w : ℕ) : List Cell :=
  rollingStd w (minPeriods w) (rvS p w)

/-- `z_ret_w = (ret - rolling_mean(ret, w)) / rolling_std(ret, w).replace(0, nan)`. -/
def zS (p : List Cell) (w : ℕ) : List Cell :=
  let r := retS p
  let m := rollingMean w (minPeriods w) r
  let s := rollingStd w (minPeriods w) r
  (List.range r.length).map (fun i =>
    Cell.cdiv (Cell.csub (r.getD i .nan) (m.getD i .nan))
      (Cell.replaceZero (s.getD i .nan)))

/-- Body of the `for w in windows` loop: assigns `mom_w`, `rv_w`, `vov_w`,
`z_ret_w`, each read back from the frame exactly as the source does.  The
pandas validation `min_periods <= window` (violated only by `w = 0`, since
`max(1, w//2) ≤ w` for every `w ≥ 1`) raises; it is checked up front here,
which yields the same `Except` result as raising at the first `rolling` call
of the iteration. -/
def addWindowFeats (pc : ColName) (fr : Frame) (w : ℕ) : Except FeatError Frame :=
  if w < minPeriods w then .error .badWindow
  else
    let price := (fr.getCol pc).getD []
    let fr1 := fr.setCol (.mom w) (pctChange w price)
    let logret := (fr1.getCol .logret).getD []
    let fr2 := fr1.setCol (.rv w)
      ((rollingStd w (minPeriods w) logret).map (fun c => Cell.cmul c (.num 252)))
    let rv := (fr2.getCol (.rv w)).getD []
    let fr3 := fr2.setCol (.vov w) (rollingStd w (minPeriods w) rv)
    let ret := (fr3.getCol .ret).getD []
    let m := rollingMean w (minPeriods w) ret
    let s := rollingStd w (minPeriods w) ret
    let fr4 := fr3.setCol (.z_ret w)
      ((List.range ret.length).map (fun i =>
        Cell.cdiv (Cell.csub (ret.getD i .nan) (m.getD i .nan))
          (Cell.replaceZero (s.getD i .nan))))
    .ok fr4

/-- The non-empty branch of `compute_standard_features`: the input is copied
(value semantics here; the object-level copy is modelled by `csf_heap`),
sorted by `Date`, the return/feature columns are assigned, and infinities are
replaced by NaN at the end.  `sort_values('Date')` raises `KeyError` when no
`Date` column exists, and `df[price_col]` raises `KeyError` when the selected
price column is absent. -/
def csf_core (df : Frame) (windows : List ℕ) : Except FeatError Frame :=
  let pc := price_col df
  if ¬ df.hasCol .date then .error (.keyError .date)
  else
    let fr := df.sortByDate
    match fr.getCol pc with
    | none => .error (.keyError pc)
    | some price =>
      let fr1 := fr.setCol .ret (pctChange 1 price)
      let fr2 := fr1.setCol .logret (diffList (price.map Cell.npLog))
      match windows.foldlM (addWindowFeats pc) fr2 with
      | .error e => .error e
      | .ok frF => .ok (frF.mapCells Cell.fixInf)

/-- `compute_standard_features(df, windows)`. -/
def compute_standard_features (df : Frame) (windows : List ℕ) : Except FeatError Frame :=
  if df.isEmpty then .ok df else csf_core df windows

/-- The cell of column `c` at row `i` of a frame (NaN when out of range). -/
def Frame.cell (f : Frame) (c : ColName) (i : ℕ) : Cell :=
  ((f.getCol c).getD []).getD i .nan

/-! ## `rolling_pairwise_correlation` -/

/-- Zip three equal-length series into (date, ticker, value) rows. -/
def zip3Rows : List Cell → List Cell → List Cell → List (Cell × Cell × Cell)
  | d :: ds, t :: ts, v :: vs => (d, t, v) :: zip3Rows ds ts vs
  | _, _, _ => []

/-- The wide-form cell for a given (date, ticker) key after the pivot; NaN
when the long frame has no row with that key. -/
def lookupCell (rows : List (Cell × Cell × Cell)) (d t : Cell) : Cell :=
  match rows.find? (fun x => decide (x.1 = d) && decide (x.2.1 = t)) with
  | some x => x.2.2
  | none => .nan

/-- One rolling-correlation aggregation step over the pairwise-complete
observations of the two windows.  The finite payload is
`sign(cov) * corr^2` (that is, `cov * |cov| / (var_x * var_y)`), a strictly
monotone stand-in for the Pearson correlation with identical definedness,
sign and zero-ness; a zero variance on either side yields NaN. -/
def aggCorr (minp : ℕ) (xs ys : List Cell) : Cell :=
  let pairs := (xs.zip ys).filterMap (fun p =>
    match p with
    | (.num a, .num b) => some (a, b)
    | _ => none)
  if hasInf xs || hasInf ys then .nan
  else if pairs.length < minp then .nan
  else if pairs.length < 2 then .nan
  else
    let n : ℚ := pairs.length
    let mx := (pairs.map (·.1)).sum / n
    let my := (pairs.map (·.2)).sum / n
    let vx := (pairs.map (fun p => (p.1 - mx) ^ 2)).sum / (n - 1)
    let vy := (pairs.map (fun p => (p.2 - my) ^ 2)).sum / (n - 1)
    let cov := (pairs.map (fun p => (p.1 - mx) * (p.2 - my))).sum / (n - 1)
    if vx = 0 || vy = 0 then .nan
    else .num (cov * |cov| / (vx * vy))

/-- `ret[left].rolling(window, min_periods=max(1, window//2)).corr(ret[right])`. -/
def rollingCorr (w minp : ℕ) (xs ys : List Cell) : List Cell :=
  (List.range xs.length).map (fun i =>
    aggCorr minp (winSlice xs w i) (winSlice ys w i))

/-- `rolling_pairwise_correlation(df, left, right, window)`.

The price column is `adj_close` if present else `close` (note: unlike
`_price_col`, `adjusted_close` is never considered).  `df.pivot` raises
`KeyError` when `Date`, `ticker` or the price column is absent and
`ValueError` on duplicate (Date, ticker) keys; the wide table has one column
per distinct ticker label, and the source then raises `KeyError` when either
requested ticker is not among them.  The result pairs each distinct date (in
ascending order, as the pivot sorts its index) with the rolling correlation
of the two tickers' simple returns. -/
def rpc_price_col (df : Frame) : ColName :=
  if df.hasCol .adj_close then ColName.adj_close else ColName.close

def rolling_pairwise_correlation (df : Frame) (left right : String) (window : ℕ) :
    Except FeatError (List (Cell × Cell)) :=
  let pc := rpc_price_col df
  match df.getCol .date with
  | none => .error (.keyError .date)
  | some dates =>
    match df.getCol .ticker with
    | none => .error (.keyError .ticker)
    | some ticks =>
      match df.getCol pc with
      | none => .error (.keyError pc)
      | some vals =>
        if ¬ (dates.zip ticks).Nodup then .error .valueErrorPivot
        else if ¬ (Cell.str left ∈ ticks ∧ Cell.str right ∈ ticks) then
          .error (.keyErrorTickers left right)
        else
          let udates := (List.insertionSort (fun a b => Frame.cellLe a b = true) dates).dedup
          let rows := zip3Rows dates ticks vals
          let colL := udates.map (fun d => lookupCell rows d (.str left))
          let colR := udates.map (fun d => lookupCell rows d (.str right))
          let retL := pctChange 1 colL
          let retR := pctChange 1 colR
          .ok (udates.zip (rollingCorr window (max 1 (window / 2)) retL retR))

/-! ## `src/features/feature_store.py` -/

/-- `FeatureStore.compute_and_store(ticker, raw_df, windows)`: delegates to
`compute_standard_features`; `windows = windows or [5, 20, 60]` treats both
`None` and the empty list as missing (Python falsiness).  The parquet write
is wrapped in `try/except` and a failure only logs, so persistence does not
affect the returned value and is not modelled. -/
def compute_and_store (windows : Option (List ℕ)) (ticker : String) (raw : Frame) :
    Except FeatError Frame :=
  let ws := match windows with
    | none => [5, 20, 60]
    | some [] => [5, 20, 60]
    | some l => l
  compute_standard_features raw ws

/-- `FeatureStore.batch_compute(tickers, client, ...)`: for each ticker fetch
raw data (`client.fetch_ticker`, modelled as a total function since ordinary
fetch failures return an empty frame), skip when empty, compute-and-store,
and accumulate the tickers whose compute step did not raise. -/
def batch_compute (fetch : String → Frame) (windows : Option (List ℕ))
    (tickers : List String) : List String :=
  tickers.foldl (fun succeeded t =>
    let raw := fetch t
    if raw.isEmpty then succeeded
    else
      match compute_and_store windows t raw with
      | .ok _ => succeeded ++ [t]
      | .error _ => succeeded) []

/-! ## The market-data clients (`factset_client.py`, `yfinance_client.py`)

Only the retry loop of `fetch_ticker` is claim-relevant; the network is
abstracted as a map from the attempt number to that attempt's outcome.  The
cache read-through path (taken before the loop when a cache directory is
configured) and the sleep-based backoff delays do not affect the returned
value and are not modelled.  A fetch result of `.ok none` is Python's `None`,
which the loop produces only when it runs zero iterations
(`retry_attempts = 0`). -/

/-- What one attempt of the network fetch does. -/
inductive Outcome where
  | success (f : Frame)
  | noData
  | authError
  | rateLimit
  | httpError
  | genericError
deriving DecidableEq, Repr

/-- The ordinary (retryable) failures: rate limiting, non-auth HTTP errors,
and generic exceptions. -/
def Outcome.isOrdinaryFailure : Outcome → Bool
  | .rateLimit => true
  | .httpError => true
  | .genericError => true
  | _ => false

/-- The `for attempt in range(retry_attempts)` loop of
`FactSetClient.fetch_ticker`: a 401 raises immediately; a missing/empty data
response returns an empty frame immediately; 429, other HTTP errors and
generic exceptions retry (`attempt < retry_attempts - 1`) and return an empty
frame on the final attempt. -/
def factsetLoop (oc : ℕ → Outcome) (na a : ℕ) : Except Unit (Option Frame) :=
  if _h : a < na then
    match oc a with
    | .success f => .ok (some f)
    | .noData => .ok (some Frame.emptyFrame)
    | .authError => .error ()
    | .rateLimit =>
        if a < na - 1 then factsetLoop oc na (a + 1) else .ok (some Frame.emptyFrame)
    | .httpError =>
        if a < na - 1 then factsetLoop oc na (a + 1) else .ok (some Frame.emptyFrame)
    | .genericError =>
        if a < na - 1 then factsetLoop oc na (a + 1) else .ok (some Frame.emptyFrame)
  else .ok none
termination_by na - a
decreasing_by all_goals omega

/-- `FactSetClient.fetch_ticker` (cache miss path). -/
def FactSetClient.fetch_ticker (oc : ℕ → Outcome) (retry_attempts : ℕ) :
    Except Unit (Option Frame) :=
  factsetLoop oc retry_attempts 0

/-- The retry loop of `YFinanceClient.fetch_ticker`: an empty history returns
an empty frame immediately; every exception — there is no special case for
authentication failures — retries and returns an empty frame on the final
attempt. -/
def yfinanceLoop (oc : ℕ → Outcome) (na a : ℕ) : Except Unit (Option Frame) :=
  if _h : a < na then
    match oc a with
    | .success f => .ok (some f)
    | .noData => .ok (some Frame.emptyFrame)
    | _ =>
        if a < na - 1 then yfinanceLoop oc na (a + 1) else .ok (some Frame.emptyFrame)
  else .ok none
termination_by na - a
decreasing_by all_goals omega

/-- `YFinanceClient.fetch_ticker` (cache miss path). -/
def YFinanceClient.fetch_ticker (oc : ℕ → Outcome) (retry_attempts : ℕ) :
    Except Unit (Option Frame) :=
  yfinanceLoop oc retry_attempts 0

/-! ## Object-level model of `compute_standard_features` (frame effects)

The heap is a list of frame objects; a reference is an index.  The source
reads the argument, returns it unchanged when empty, and otherwise performs
`df = df.copy()` — after which the local name never aliases the argument —
so every subsequent statement (column assignments and the `inplace=True`
replace) mutates only the freshly allocated copy, modelled as an update of
the copy's slot with the computed result. -/
def csf_heap (h : List Frame) (r : Nat) (windows : List ℕ) :
    List Frame × Except FeatError Nat :=
  let df := h.getD r Frame.emptyFrame
  if df.isEmpty then (h, .ok r)
  else
    let h1 := h ++ [df]
    let c := h.length
    match csf_core df windows with
    | .error e => (h1, .error e)
    | .ok F => (h1.set c F, .ok c)

/-! ## Basic lemmas about columns, frames and ranges -/

theorem getPairs_setPairs_self (l : List (ColName × List Cell)) (c : ColName)
    (v : List Cell) : getPairs (setPairs l c v) c = some v := by
  induction l with
  | nil => simp [getPairs, setPairs]
  | cons p rest ih =>
    by_cases h : p.1 = c
    · simp [getPairs, setPairs, h]
    · simp [getPairs, setPairs, h, ih]

theorem getPairs_setPairs_ne (l : List (ColName × List Cell)) (c c2 : ColName)
    (v : List Cell) (h : c2 ≠ c) : getPairs (setPairs l c v) c2 = getPairs l c2 := by
  induction l with
  | nil => simp [getPairs, setPairs, Ne.symm h]
  | cons p rest ih =>
    by_cases hp : p.1 = c
    · simp [getPairs, setPairs, hp, Ne.symm h]
    · simp [getPairs, setPairs, hp, ih]

theorem names_setPairs_mem (l : List (ColName × List Cell)) (c : ColName)
    (v : List Cell) (h : c ∈ l.map (·.1)) :
    (setPairs l c v).map (·.1) = l.map (·.1) := by
  induction l with
  | nil => simp at h
  | cons p rest ih =>
    by_cases hp : p.1 = c
    · simp [setPairs, hp]
    · have h2 : c ∈ rest.map (·.1) := by
        simp only [List.map_cons, List.mem_cons] at h
        exact h.resolve_left (fun he => hp he.symm)
      simp [setPairs, hp, ih h2]

theorem names_setPairs_not_mem (l : List (ColName × List Cell)) (c : ColName)
    (v : List Cell) (h : c ∉ l.map (·.1)) :
    (setPairs l c v).map (·.1) = l.map (·.1) ++ [c] := by
  induction l with
  | nil => simp [setPairs]
  | cons p rest ih =>
    have hp : p.1 ≠ c := by
      intro he
      exact h (by simp [he])
    have h2 : c ∉ rest.map (·.1) := by
      intro hm
      exact h (by simp [hm])
    simp [setPairs, hp, ih h2]

theorem length_setPairs_vals (l : List (ColName × List Cell)) (c : ColName)
    (v : List Cell) (n : ℕ) (hv : v.length = n) (hl : ∀ p ∈ l, (p.2 : List Cell).length = n) :
    ∀ p ∈ setPairs l c v, (p.2 : List Cell).length = n := by
  induction l with
  | nil => simp [setPairs, hv]
  | cons p rest ih =>
    by_cases hp : p.1 = c
    · intro q hq
      simp [setPairs, hp] at hq
      rcases hq with hq | hq
      · simp [hq, hv]
      · exact hl q (by simp [hq])
    · intro q hq
      simp [setPairs, hp] at hq
      rcases hq with hq | hq
      · exact hl q (by simp [hq])
      · exact ih (fun r hr => hl r (by simp [hr])) q hq


theorem getPairs_mapVals (l : List (ColName × List Cell)) (g : List Cell → List Cell)
    (c : ColName) :
    getPairs (l.map (fun p => (p.1, g p.2))) c = (getPairs l c).map g := by
  induction l with
  | nil => simp [getPairs]
  | cons p rest ih =>
    by_cases hp : p.1 = c
    · simp [getPairs, hp]
    · simp [getPairs, hp, ih]

namespace Frame

theorem getCol_setCol_self (f : Frame) (c : ColName) (v : List Cell) :
    (f.setCol c v).getCol c = some v :=
  getPairs_setPairs_self f.cols c v

theorem getCol_setCol_ne (f : Frame) (c c2 : ColName) (v : List Cell)
    (h : c2 ≠ c) : (f.setCol c v).getCol c2 = f.getCol c2 :=
  getPairs_setPairs_ne f.cols c c2 v h

theorem getCol_mapCells (f : Frame) (g : Cell → Cell) (c : ColName) :
    (f.mapCells g).getCol c = (f.getCol c).map (fun v => v.map g) :=
  getPairs_mapVals f.cols (fun v => v.map g) c

theorem names_mapCells (f : Frame) (g : Cell → Cell) :
    (f.mapCells g).names = f.names := by
  simp [mapCells, names]

theorem getCol_sortByDate (f : Frame) (c : ColName) :
    f.sortByDate.getCol c = (f.getCol c).map (permuteCol (sortPerm f)) := by
  rw [sortByDate, getCol, getPairs_mapVals]
  rfl

theorem getCol_sortByDate_isSome (f : Frame) (c : ColName) :
    (f.sortByDate.getCol c).isSome = (f.getCol c).isSome := by
  rw [getCol_sortByDate]
  cases f.getCol c <;> simp

theorem names_sortByDate (f : Frame) : f.sortByDate.names = f.names := by
  simp [sortByDate, names]

end Frame

theorem dropRangeAux (m : ℕ) : ∀ (s n : ℕ),
    (List.range' s n).drop m = List.range' (s + m) (n - m) := by
  induction m with
  | zero => simp
  | succ k ih =>
    intro s n
    cases n with
    | zero => simp
    | succ j =>
      rw [List.range'_succ]
      simp only [List.drop_succ_cons]
      rw [ih (s + 1) j]
      congr 1 <;> omega

theorem dropRange (m n : ℕ) : (List.range n).drop m = List.range' m (n - m) := by
  rw [List.range_eq_range', dropRangeAux m 0 n, Nat.zero_add]

theorem getD_range_map (f : ℕ → Cell) (n i : ℕ) (h : i < n) (d : Cell) :
    ((List.range n).map f).getD i d = f i := by
  rw [List.getD_eq_getElem _ _ (by simpa using h)]
  simp

theorem getD_map_of_lt (l : List Cell) (g : Cell → Cell) (i : ℕ) (h : i < l.length)
    (d d2 : Cell) : (l.map g).getD i d = g (l.getD i d2) := by
  rw [List.getD_eq_getElem _ _ (by simpa using h), List.getD_eq_getElem _ _ h]
  simp

theorem getD_of_ge (l : List Cell) (i : ℕ) (h : l.length ≤ i) (d : Cell) :
    l.getD i d = d := by
  simp [List.getD_eq_getElem?_getD, List.getElem?_eq_none (by simpa using h)]

theorem Cell.isNan_false_of_isNum (c : Cell) (h : c.isNum = true) : c.isNan = false := by
  cases c <;> simp_all [Cell.isNum, Cell.isNan]

theorem Cell.isInf_false_of_isNum (c : Cell) (h : c.isNum = true) : c.isInf = false := by
  cases c <;> simp_all [Cell.isNum, Cell.isInf]

theorem Cell.eq_nan_of_isNan (c : Cell) (h : c.isNan = true) : c = .nan := by
  cases c <;> simp_all [Cell.isNan]

/-! ## Characterization of the rolling aggregations

On a series of the shape `(List.range n).map g` whose row 0 is NaN and whose
other rows are finite, the window ending at row `i` contains exactly
`min i w` observations, so the rolling std is defined exactly from row
`max minp 2` on and the rolling mean exactly from row `minp` on. -/

theorem winSlice_range_map (g : ℕ → Cell) (n w i : ℕ) (hi : i < n) :
    winSlice ((List.range n).map g) w i
      = (List.range' (i + 1 - w) (min (i + 1) w)).map g := by
  rw [winSlice, ← List.map_take, List.take_range, ← List.map_drop]
  have h1 : min (i + 1) n = i + 1 := by omega
  rw [h1, dropRange]
  congr 2
  omega

theorem nonNanCount_range'_map (g : ℕ → Cell) (n : ℕ)
    (h0 : (g 0).isNan = true)
    (hpos : ∀ j, 1 ≤ j → j < n → (g j).isNan = false) :
    ∀ (b a : ℕ), a + b ≤ n →
      nonNanCount ((List.range' a b).map g) = if a = 0 then b - 1 else b := by
  intro b
  induction b with
  | zero => intro a _; simp [nonNanCount]
  | succ k ih =>
    intro a hab
    rw [List.range'_succ, List.map_cons]
    by_cases ha : a = 0
    · subst ha
      have hih := ih 1 (by omega)
      simp only [if_neg (by omega : ¬ (1 : ℕ) = 0)] at hih
      simpa [nonNanCount, List.filter_cons, h0] using hih
    · have hga : (g a).isNan = false := hpos a (by omega) (by omega)
      simp only [nonNanCount, List.filter_cons, hga]
      have := ih (a + 1) (by omega)
      simp only [nonNanCount, if_neg (by omega : ¬ a + 1 = 0)] at this
      simp [this, ha]

theorem hasInf_range'_map_false (g : ℕ → Cell) (n a b : ℕ)
    (hnoinf : ∀ j, j < n → (g j).isInf = false) (hab : a + b ≤ n) :
    hasInf ((List.range' a b).map g) = false := by
  simp only [hasInf, List.any_eq_false]
  intro c hc
  obtain ⟨j, hj, rfl⟩ := List.mem_map.mp hc
  have := List.mem_range'_1.mp hj
  simpa using hnoinf j (by omega)

theorem anyPinf_range'_map_false (g : ℕ → Cell) (n a b : ℕ)
    (hnoinf : ∀ j, j < n → (g j).isInf = false) (hab : a + b ≤ n) :
    ((List.range' a b).map g).any (fun c => c = Cell.pinf) = false := by
  simp only [List.any_eq_false]
  intro c hc
  obtain ⟨j, hj, rfl⟩ := List.mem_map.mp hc
  have := List.mem_range'_1.mp hj
  have h2 := hnoinf j (by omega)
  cases hgj : g j <;> simp_all [Cell.isInf]

theorem anyNinf_range'_map_false (g : ℕ → Cell) (n a b : ℕ)
    (hnoinf : ∀ j, j < n → (g j).isInf = false) (hab : a + b ≤ n) :
    ((List.range' a b).map g).any (fun c => c = Cell.ninf) = false := by
  simp only [List.any_eq_false]
  intro c hc
  obtain ⟨j, hj, rfl⟩ := List.mem_map.mp hc
  have := List.mem_range'_1.mp hj
  have h2 := hnoinf j (by omega)
  cases hgj : g j <;> simp_all [Cell.isInf]

theorem rollingStd_getD (g : ℕ → Cell) (n w minp i : ℕ)
    (h0 : (g 0).isNan = true)
    (hnum : ∀ j, 1 ≤ j → j < n → (g j).isNum = true)
    (hi : i < n) (hn : ((List.range n).map g).length = n) :
    (rollingStd w minp ((List.range n).map g)).getD i .nan
      = if min i w < max minp 2 then .nan
        else .num (sampleVarQ (obsList (winSlice ((List.range n).map g) w i))) := by
  have hlen : (rollingStd w minp ((List.range n).map g))
      = (List.range n).map (fun j => aggStd minp (winSlice ((List.range n).map g) w j)) := by
    rw [rollingStd, hn]
  rw [hlen, getD_range_map _ _ _ hi]
  have hsl := winSlice_range_map g n w i hi
  have hcount : nonNanCount (winSlice ((List.range n).map g) w i) = min i w := by
    rw [hsl]
    rw [nonNanCount_range'_map g n h0
      (fun j h1 h2 => Cell.isNan_false_of_isNum _ (hnum j h1 h2)) (min (i + 1) w) (i + 1 - w)
      (by omega)]
    split <;> omega
  have hinf : hasInf (winSlice ((List.range n).map g) w i) = false := by
    rw [hsl]
    apply hasInf_range'_map_false g n _ _ _ (by omega)
    intro j hj
    by_cases hj0 : j = 0
    · subst hj0
      rw [Cell.eq_nan_of_isNan _ h0]
      rfl
    · exact Cell.isInf_false_of_isNum _ (hnum j (by omega) hj)
  rw [aggStd, hcount, hinf]
  by_cases h1 : min i w < minp
  · rw [if_pos h1, if_pos (by omega)]
  · rw [if_neg h1]
    simp only [Bool.false_eq_true, if_false]
    by_cases h2 : min i w < 2
    · rw [if_pos h2, if_pos (by omega)]
    · rw [if_neg h2, if_neg (by omega)]

theorem rollingMean_getD (g : ℕ → Cell) (n w minp i : ℕ)
    (h0 : (g 0).isNan = true)
    (hnum : ∀ j, 1 ≤ j → j < n → (g j).isNum = true)
    (hi : i < n) (hn : ((List.range n).map g).length = n) :
    (rollingMean w minp ((List.range n).map g)).getD i .nan
      = if min i w < minp then .nan
        else .num ((obsList (winSlice ((List.range n).map g) w i)).sum
          / ((min i w : ℕ) : ℚ)) := by
  have hlen : (rollingMean w minp ((List.range n).map g))
      = (List.range n).map (fun j => aggMean minp (winSlice ((List.range n).map g) w j)) := by
    rw [rollingMean, hn]
  rw [hlen, getD_range_map _ _ _ hi]
  have hsl := winSlice_range_map g n w i hi
  have hnoinf : ∀ j, j < n → (g j).isInf = false := by
    intro j hj
    by_cases hj0 : j = 0
    · subst hj0
      rw [Cell.eq_nan_of_isNan _ h0]
      rfl
    · exact Cell.isInf_false_of_isNum _ (hnum j (by omega) hj)
  have hcount : nonNanCount (winSlice ((List.range n).map g) w i) = min i w := by
    rw [hsl]
    rw [nonNanCount_range'_map g n h0
      (fun j h1 h2 => Cell.isNan_false_of_isNum _ (hnum j h1 h2)) (min (i + 1) w) (i + 1 - w)
      (by omega)]
    split <;> omega
  have hpos : (winSlice ((List.range n).map g) w i).any (fun c => c = Cell.pinf) = false := by
    rw [hsl]
    exact anyPinf_range'_map_false g n _ _ hnoinf (by omega)
  have hneg : (winSlice ((List.range n).map g) w i).any (fun c => c = Cell.ninf) = false := by
    rw [hsl]
    exact anyNinf_range'_map_false g n _ _ hnoinf (by omega)
  rw [aggMean, hcount, hpos, hneg]
  simp

/-! ## Cell arithmetic micro-lemmas -/

theorem Cell.csub_nan_left (b : Cell) : Cell.csub .nan b = .nan := by
  cases b <;> rfl

theorem Cell.cdiv_nan_right (a : Cell) : Cell.cdiv a .nan = .nan := by
  cases a <;> rfl

theorem Cell.csub_num_num (a b : ℚ) : Cell.csub (.num a) (.num b) = .num (a - b) := by
  simp [Cell.csub, Cell.cadd, Cell.cneg, sub_eq_add_neg]

theorem Cell.cdiv_num_num (a b : ℚ) (hb : b ≠ 0) :
    Cell.cdiv (.num a) (.num b) = .num (a / b) := by
  simp [Cell.cdiv, hb]

theorem Cell.cmul_num_num (a b : ℚ) : Cell.cmul (.num a) (.num b) = .num (a * b) := rfl

theorem Cell.fixInf_of_isNan (c : Cell) (h : c.isNan = true) : c.fixInf = .nan := by
  cases c <;> simp_all [Cell.isNan, Cell.fixInf]

theorem Cell.fixInf_of_isNum (c : Cell) (h : c.isNum = true) : c.fixInf = c := by
  cases c <;> simp_all [Cell.isNum, Cell.fixInf]

theorem Cell.isInf_fixInf (c : Cell) : c.fixInf.isInf = false := by
  cases c <;> rfl

/-! ## Shape and definedness of the individual feature series -/

/-- Strictly positive finite cell (decidable, for concrete instantiation). -/
def Cell.isPosNum : Cell → Bool
  | .num q => decide (0 < q)
  | _ => false

/-- A price column of strictly positive finite values. -/
def posNumList (p : List Cell) : Prop :=
  ∀ c ∈ p, c.isPosNum = true

theorem posNumList_getD (p : List Cell) (hp : posNumList p) (j : ℕ)
    (hj : j < p.length) : ∃ q : ℚ, 0 < q ∧ p.getD j .nan = .num q := by
  rw [List.getD_eq_getElem _ _ hj]
  have hc := hp _ (p.getElem_mem hj)
  cases he : p[j] <;> rw [he] at hc <;> simp [Cell.isPosNum] at hc
  exact ⟨_, hc, rfl⟩

theorem length_pctChange (k : ℕ) (p : List Cell) : (pctChange k p).length = p.length := by
  rw [pctChange]
  simp

theorem length_retS (p : List Cell) : (retS p).length = p.length :=
  length_pctChange 1 p

theorem length_logretS (p : List Cell) : (logretS p).length = p.length := by
  rw [logretS, diffList]
  simp

theorem length_rollingStd (w minp : ℕ) (xs : List Cell) :
    (rollingStd w minp xs).length = xs.length := by
  rw [rollingStd]
  simp

theorem length_rollingMean (w minp : ℕ) (xs : List Cell) :
    (rollingMean w minp xs).length = xs.length := by
  rw [rollingMean]
  simp

theorem length_rvS (p : List Cell) (w : ℕ) : (rvS p w).length = p.length := by
  rw [rvS]
  simp [length_rollingStd, length_logretS]

theorem length_vovS (p : List Cell) (w : ℕ) : (vovS p w).length = p.length := by
  rw [vovS]
  simp [length_rollingStd, length_rvS]

theorem length_momS (p : List Cell) (w : ℕ) : (momS p w).length = p.length :=
  length_pctChange w p

theorem length_zS (p : List Cell) (w : ℕ) : (zS p w).length = p.length := by
  rw [zS]
  simp [length_retS]

theorem pctChange_getD_lt (k : ℕ) (p : List Cell) (i : ℕ) (hik : i < k)
    (hi : i < p.length) : (pctChange k p).getD i .nan = .nan := by
  rw [pctChange, getD_range_map _ _ _ hi, if_pos hik]

theorem pctChange_getD_ge (k : ℕ) (p : List Cell) (hp : posNumList p) (i : ℕ)
    (hik : k ≤ i) (hi : i < p.length) :
    ∃ q : ℚ, (pctChange k p).getD i .nan = .num q := by
  rw [pctChange, getD_range_map _ _ _ hi, if_neg (by omega)]
  obtain ⟨a, _, ha⟩ := posNumList_getD p hp i hi
  obtain ⟨b, hbpos, hb⟩ := posNumList_getD p hp (i - k) (by omega)
  rw [ha, hb, Cell.cdiv_num_num a b (by positivity), Cell.csub_num_num]
  exact ⟨_, rfl⟩

/-- Index form of `ret` (the body of `pctChange 1`). -/
def gRet (p : List Cell) (i : ℕ) : Cell :=
  if i < 1 then .nan
  else Cell.csub (Cell.cdiv (p.getD i .nan) (p.getD (i - 1) .nan)) (.num 1)

/-- Index form of `logret` (the body of `diff` over `np.log(price)`). -/
def gLog (p : List Cell) (i : ℕ) : Cell :=
  if i = 0 then .nan
  else Cell.csub ((p.map Cell.npLog).getD i .nan) ((p.map Cell.npLog).getD (i - 1) .nan)

theorem retS_eq (p : List Cell) : retS p = (List.range p.length).map (gRet p) := by
  rw [retS, pctChange]
  rfl

theorem logretS_eq (p : List Cell) : logretS p = (List.range p.length).map (gLog p) := by
  rw [logretS, diffList, List.length_map]
  rfl

theorem gRet_zero_isNan (p : List Cell) : (gRet p 0).isNan = true := by
  simp [gRet, Cell.isNan]

theorem gRet_isNum (p : List Cell) (hp : posNumList p) (j : ℕ) (h1 : 1 ≤ j)
    (hj : j < p.length) : (gRet p j).isNum = true := by
  rw [gRet, if_neg (by omega)]
  obtain ⟨a, _, ha⟩ := posNumList_getD p hp j hj
  obtain ⟨b, hbpos, hb⟩ := posNumList_getD p hp (j - 1) (by omega)
  rw [ha, hb, Cell.cdiv_num_num a b (by positivity), Cell.csub_num_num]
  rfl

theorem gLog_zero_isNan (p : List Cell) : (gLog p 0).isNan = true := by
  simp [gLog, Cell.isNan]

theorem gLog_isNum (p : List Cell) (hp : posNumList p) (j : ℕ) (h1 : 1 ≤ j)
    (hj : j < p.length) : (gLog p j).isNum = true := by
  rw [gLog, if_neg (by omega)]
  obtain ⟨a, hapos, ha⟩ := posNumList_getD p hp j hj
  obtain ⟨b, hbpos, hb⟩ := posNumList_getD p hp (j - 1) (by omega)
  rw [getD_map_of_lt p Cell.npLog j hj .nan .nan,
    getD_map_of_lt p Cell.npLog (j - 1) (by omega) .nan .nan, ha, hb]
  have hla : Cell.npLog (.num a) = .num a := by
    simp [Cell.npLog, hapos, ne_of_gt hapos]
  have hlb : Cell.npLog (.num b) = .num b := by
    simp [Cell.npLog, hbpos, ne_of_gt hbpos]
  rw [hla, hlb, Cell.csub_num_num]
  rfl

/-- `rv_w` row characterization: NaN exactly below row `max(max(1, w//2), 2)`,
a finite value from there on (positive finite prices). -/
theorem rvS_getD (p : List Cell) (w : ℕ) (hp : posNumList p) (i : ℕ)
    (hi : i < p.length) :
    (rvS p w).getD i .nan
      = if min i w < max (minPeriods w) 2 then Cell.nan
        else Cell.num (sampleVarQ (obsList (winSlice (logretS p) w i)) * 252) := by
  rw [rvS]
  rw [getD_map_of_lt _ _ i (by rw [length_rollingStd, length_logretS]; exact hi) .nan .nan]
  rw [logretS_eq p]
  rw [rollingStd_getD (gLog p) p.length w (minPeriods w) i (gLog_zero_isNan p)
    (gLog_isNum p hp) hi (by simp)]
  split
  · rfl
  · rw [Cell.cmul_num_num]

/-- `ret`'s rolling std in index form. -/
theorem rollingStd_retS_getD (p : List Cell) (w : ℕ) (hp : posNumList p) (i : ℕ)
    (hi : i < p.length) :
    (rollingStd w (minPeriods w) (retS p)).getD i .nan
      = if min i w < max (minPeriods w) 2 then Cell.nan
        else Cell.num (sampleVarQ (obsList (winSlice (retS p) w i))) := by
  rw [retS_eq p]
  rw [rollingStd_getD (gRet p) p.length w (minPeriods w) i (gRet_zero_isNan p)
    (gRet_isNum p hp) hi (by simp)]

/-- Index form of `z_ret_w` (the body of the z-score assignment). -/
def gZ (p : List Cell) (w i : ℕ) : Cell :=
  Cell.cdiv
    (Cell.csub ((retS p).getD i .nan)
      ((rollingMean w (minPeriods w) (retS p)).getD i .nan))
    (Cell.replaceZero ((rollingStd w (minPeriods w) (retS p)).getD i .nan))

theorem zS_eq (p : List Cell) (w : ℕ) :
    zS p w = (List.range p.length).map (gZ p w) := by
  rw [zS, length_retS]
  rfl

theorem zS_getD_lt (p : List Cell) (w : ℕ) (hp : posNumList p) (i : ℕ)
    (hi : i < p.length) (hlt : min i w < max (minPeriods w) 2) :
    (zS p w).getD i .nan = .nan := by
  rw [zS_eq, getD_range_map _ _ _ hi, gZ,
    rollingStd_retS_getD p w hp i hi, if_pos hlt]
  rw [show Cell.replaceZero .nan = .nan from by simp [Cell.replaceZero]]
  exact Cell.cdiv_nan_right _

theorem zS_getD_isNum (p : List Cell) (w : ℕ) (hp : posNumList p) (hw : 1 ≤ w)
    (i : ℕ) (hi : i < p.length) (hge : ¬ min i w < max (minPeriods w) 2)
    (hvar : sampleVarQ (obsList (winSlice (retS p) w i)) ≠ 0) :
    ((zS p w).getD i .nan).isNum = true := by
  rw [zS_eq, getD_range_map _ _ _ hi, gZ,
    rollingStd_retS_getD p w hp i hi, if_neg hge]
  have hrz : Cell.replaceZero (.num (sampleVarQ (obsList (winSlice (retS p) w i))))
      = .num (sampleVarQ (obsList (winSlice (retS p) w i))) := by
    simp [Cell.replaceZero, hvar]
  rw [hrz]
  have hminp : minPeriods w ≤ w := by
    rw [minPeriods]
    omega
  have hmean : (rollingMean w (minPeriods w) (retS p)).getD i .nan
      = .num ((obsList (winSlice (retS p) w i)).sum / ((min i w : ℕ) : ℚ)) := by
    rw [retS_eq p]
    rw [rollingMean_getD (gRet p) p.length w (minPeriods w) i (gRet_zero_isNan p)
      (gRet_isNum p hp) hi (by simp)]
    rw [if_neg (by omega)]
  rw [hmean]
  have hretc : ((retS p).getD i .nan).isNum = true := by
    rw [retS_eq, getD_range_map _ _ _ hi]
    exact gRet_isNum p hp i (by omega) hi
  obtain ⟨r, hr⟩ : ∃ r : ℚ, (retS p).getD i .nan = .num r := by
    cases hc : (retS p).getD i .nan <;> simp_all [Cell.isNum]
  rw [hr, Cell.csub_num_num, Cell.cdiv_num_num _ _ hvar]
  rfl

theorem zS_getD_stdZero (p : List Cell) (w : ℕ) (i : ℕ) (hi : i < p.length)
    (hstd : (rollingStd w (minPeriods w) (retS p)).getD i .nan = .num 0) :
    (zS p w).getD i .nan = .nan := by
  rw [zS_eq, getD_range_map _ _ _ hi, gZ, hstd]
  rw [show Cell.replaceZero (.num 0) = .nan from by simp [Cell.replaceZero]]
  exact Cell.cdiv_nan_right _

/-! ## The per-window loop body and its fold -/

theorem addWindowFeats_ok (pc : ColName) (p : List Cell) (fr : Frame) (w : ℕ)
    (hw : 1 ≤ w)
    (hprice : fr.getCol pc = some p)
    (hret : fr.getCol .ret = some (retS p))
    (hlog : fr.getCol .logret = some (logretS p)) :
    addWindowFeats pc fr w
      = .ok ((((fr.setCol (.mom w) (momS p w)).setCol (.rv w) (rvS p w)).setCol
          (.vov w) (vovS p w)).setCol (.z_ret w) (zS p w)) := by
  have hnw : ¬ w < minPeriods w := by
    rw [minPeriods]
    omega
  have hlogret1 : ∀ v, ((fr.setCol (.mom w) v).getCol .logret) = some (logretS p) := by
    intro v
    rw [Frame.getCol_setCol_ne _ _ _ _ (by simp), hlog]
  have hret3 : ∀ v1 v2 v3,
      ((((fr.setCol (.mom w) v1).setCol (.rv w) v2).setCol (.vov w) v3).getCol .ret)
        = some (retS p) := by
    intro v1 v2 v3
    rw [Frame.getCol_setCol_ne _ _ _ _ (by simp), Frame.getCol_setCol_ne _ _ _ _ (by simp),
      Frame.getCol_setCol_ne _ _ _ _ (by simp), hret]
  simp only [addWindowFeats, if_neg hnw, hprice, Option.getD_some,
    Frame.getCol_setCol_self, hlogret1, hret3, momS, rvS, vovS, zS, length_retS]

/-- The feature labels added for each window, in assignment order. -/
def featNames : List ℕ → List ColName
  | [] => []
  | w :: rest => [.mom w, .rv w, .vov w, .z_ret w] ++ featNames rest

theorem length_featNames (ws : List ℕ) : (featNames ws).length = 4 * ws.length := by
  induction ws with
  | nil => simp [featNames]
  | cons w rest ih =>
    simp [featNames, ih]
    omega

theorem priceName_ne_feat (pc : ColName)
    (hpc : pc = .adj_close ∨ pc = .adjusted_close ∨ pc = .close) (w : ℕ) :
    pc ≠ .mom w ∧ pc ≠ .rv w ∧ pc ≠ .vov w ∧ pc ≠ .z_ret w := by
  rcases hpc with h | h | h <;> subst h <;>
    exact ⟨by simp, by simp, by simp, by simp⟩

theorem names_setCol_not_mem (f : Frame) (c : ColName) (v : List Cell)
    (h : c ∉ f.names) : (f.setCol c v).names = f.names ++ [c] :=
  names_setPairs_not_mem f.cols c v h

/-- Characterization of the `for w in windows` fold: it succeeds on positive
windows, leaves the price/`ret`/`logret` columns and every untouched column
alone, stores the four feature series of each window, appends exactly the
fresh feature labels in order, and preserves the common column length. -/
theorem foldl_addWindow (pc : ColName) (p : List Cell)
    (hpc : pc = .adj_close ∨ pc = .adjusted_close ∨ pc = .close) :
    ∀ (ws : List ℕ) (fr : Frame),
    fr.getCol pc = some p →
    fr.getCol .ret = some (retS p) →
    fr.getCol .logret = some (logretS p) →
    (∀ w ∈ ws, 1 ≤ w) →
    ws.Nodup →
    ∃ frF, ws.foldlM (addWindowFeats pc) fr = .ok frF
      ∧ (∀ c : ColName,
          (∀ w ∈ ws, c ≠ .mom w ∧ c ≠ .rv w ∧ c ≠ .vov w ∧ c ≠ .z_ret w) →
          frF.getCol c = fr.getCol c)
      ∧ (∀ w ∈ ws, frF.getCol (.mom w) = some (momS p w)
          ∧ frF.getCol (.rv w) = some (rvS p w)
          ∧ frF.getCol (.vov w) = some (vovS p w)
          ∧ frF.getCol (.z_ret w) = some (zS p w))
      ∧ ((∀ w ∈ ws, (ColName.mom w) ∉ fr.names ∧ (ColName.rv w) ∉ fr.names
            ∧ (ColName.vov w) ∉ fr.names ∧ (ColName.z_ret w) ∉ fr.names) →
          frF.names = fr.names ++ featNames ws)
      ∧ (∀ n : ℕ, (∀ q ∈ fr.cols, q.2.length = n) → p.length = n →
          (∀ q ∈ frF.cols, q.2.length = n)) := by
  intro ws
  induction ws with
  | nil =>
    intro fr hprice hret hlog _ _
    refine ⟨fr, rfl, fun c _ => rfl, by simp, ?_, ?_⟩
    · intro _
      simp [featNames]
    · intro n hwf _
      exact hwf
  | cons w rest ih =>
    intro fr hprice hret hlog hwpos hnd
    obtain ⟨hne1, hne2, hne3, hne4⟩ := priceName_ne_feat pc hpc w
    have hw1 : 1 ≤ w := hwpos w (by simp)
    have hadd := addWindowFeats_ok pc p fr w hw1 hprice hret hlog
    set fr4 : Frame := (((fr.setCol (.mom w) (momS p w)).setCol (.rv w) (rvS p w)).setCol
      (.vov w) (vovS p w)).setCol (.z_ret w) (zS p w) with hfr4
    have hprice4 : fr4.getCol pc = some p := by
      rw [hfr4, Frame.getCol_setCol_ne _ _ _ _ hne4, Frame.getCol_setCol_ne _ _ _ _ hne3,
        Frame.getCol_setCol_ne _ _ _ _ hne2, Frame.getCol_setCol_ne _ _ _ _ hne1, hprice]
    have hret4 : fr4.getCol .ret = some (retS p) := by
      rw [hfr4, Frame.getCol_setCol_ne _ _ _ _ (by simp), Frame.getCol_setCol_ne _ _ _ _ (by simp),
        Frame.getCol_setCol_ne _ _ _ _ (by simp), Frame.getCol_setCol_ne _ _ _ _ (by simp), hret]
    have hlog4 : fr4.getCol .logret = some (logretS p) := by
      rw [hfr4, Frame.getCol_setCol_ne _ _ _ _ (by simp), Frame.getCol_setCol_ne _ _ _ _ (by simp),
        Frame.getCol_setCol_ne _ _ _ _ (by simp), Frame.getCol_setCol_ne _ _ _ _ (by simp), hlog]
    have hmom4 : fr4.getCol (.mom w) = some (momS p w) := by
      rw [hfr4, Frame.getCol_setCol_ne _ _ _ _ (by simp), Frame.getCol_setCol_ne _ _ _ _ (by simp),
        Frame.getCol_setCol_ne _ _ _ _ (by simp), Frame.getCol_setCol_self]
    have hrv4 : fr4.getCol (.rv w) = some (rvS p w) := by
      rw [hfr4, Frame.getCol_setCol_ne _ _ _ _ (by simp), Frame.getCol_setCol_ne _ _ _ _ (by simp),
        Frame.getCol_setCol_self]
    have hvov4 : fr4.getCol (.vov w) = some (vovS p w) := by
      rw [hfr4, Frame.getCol_setCol_ne _ _ _ _ (by simp), Frame.getCol_setCol_self]
    have hz4 : fr4.getCol (.z_ret w) = some (zS p w) := by
      rw [hfr4, Frame.getCol_setCol_self]
    obtain ⟨frF, hfold, hpres, hcols, hnames, hwf⟩ :=
      ih fr4 hprice4 hret4 hlog4 (fun w2 hw2 => hwpos w2 (by simp [hw2]))
        (List.Nodup.of_cons hnd)
    have hwne : w ∉ rest := by
      intro hmem
      exact (List.nodup_cons.mp hnd).1 hmem
    refine ⟨frF, ?_, ?_, ?_, ?_, ?_⟩
    · rw [List.foldlM_cons, hadd]
      simpa using hfold
    · intro c hc
      have hcrest : ∀ w2 ∈ rest, c ≠ .mom w2 ∧ c ≠ .rv w2 ∧ c ≠ .vov w2 ∧ c ≠ .z_ret w2 := by
        intro w2 hw2
        exact hc w2 (by simp [hw2])
      obtain ⟨hcw1, hcw2, hcw3, hcw4⟩ := hc w (by simp)
      rw [hpres c hcrest, hfr4, Frame.getCol_setCol_ne _ _ _ _ hcw4,
        Frame.getCol_setCol_ne _ _ _ _ hcw3, Frame.getCol_setCol_ne _ _ _ _ hcw2,
        Frame.getCol_setCol_ne _ _ _ _ hcw1]
    · intro w2 hw2
      rcases List.mem_cons.mp hw2 with hw2 | hw2
      · subst hw2
        have hfresh : ∀ w3 ∈ rest,
            (ColName.mom w2) ≠ .mom w3 ∧ (ColName.mom w2) ≠ .rv w3
              ∧ (ColName.mom w2) ≠ .vov w3 ∧ (ColName.mom w2) ≠ .z_ret w3 := by
          intro w3 hw3
          have : w2 ≠ w3 := fun he => hwne (he ▸ hw3)
          exact ⟨by simp [this], by simp, by simp, by simp⟩
        have hfresh2 : ∀ w3 ∈ rest,
            (ColName.rv w2) ≠ .mom w3 ∧ (ColName.rv w2) ≠ .rv w3
              ∧ (ColName.rv w2) ≠ .vov w3 ∧ (ColName.rv w2) ≠ .z_ret w3 := by
          intro w3 hw3
          have : w2 ≠ w3 := fun he => hwne (he ▸ hw3)
          exact ⟨by simp, by simp [this], by simp, by simp⟩
        have hfresh3 : ∀ w3 ∈ rest,
            (ColName.vov w2) ≠ .mom w3 ∧ (ColName.vov w2) ≠ .rv w3
              ∧ (ColName.vov w2) ≠ .vov w3 ∧ (ColName.vov w2) ≠ .z_ret w3 := by
          intro w3 hw3
          have : w2 ≠ w3 := fun he => hwne (he ▸ hw3)
          exact ⟨by simp, by simp, by simp [this], by simp⟩
        have hfresh4 : ∀ w3 ∈ rest,
            (ColName.z_ret w2) ≠ .mom w3 ∧ (ColName.z_ret w2) ≠ .rv w3
              ∧ (ColName.z_ret w2) ≠ .vov w3 ∧ (ColName.z_ret w2) ≠ .z_ret w3 := by
          intro w3 hw3
          have : w2 ≠ w3 := fun he => hwne (he ▸ hw3)
          exact ⟨by simp, by simp, by simp, by simp [this]⟩
        exact ⟨by rw [hpres _ hfresh, hmom4], by rw [hpres _ hfresh2, hrv4],
          by rw [hpres _ hfresh3, hvov4], by rw [hpres _ hfresh4, hz4]⟩
      · exact hcols w2 hw2
    · intro hfreshIn
      obtain ⟨hf1, hf2, hf3, hf4⟩ := hfreshIn w (by simp)
      have e1 := names_setCol_not_mem fr (.mom w) (momS p w) hf1
      have e2 := names_setCol_not_mem (fr.setCol (.mom w) (momS p w)) (.rv w) (rvS p w)
        (by rw [e1]; simp [hf2])
      have e3 := names_setCol_not_mem ((fr.setCol (.mom w) (momS p w)).setCol (.rv w) (rvS p w))
        (.vov w) (vovS p w) (by rw [e2, e1]; simp [hf3])
      have e4 := names_setCol_not_mem (((fr.setCol (.mom w) (momS p w)).setCol (.rv w)
        (rvS p w)).setCol (.vov w) (vovS p w)) (.z_ret w) (zS p w)
        (by rw [e3, e2, e1]; simp [hf4])
      have hn4 : fr4.names
          = fr.names ++ [ColName.mom w, .rv w, .vov w, .z_ret w] := by
        rw [hfr4, e4, e3, e2, e1]
        simp
      have hfresh4 : ∀ w3 ∈ rest, (ColName.mom w3) ∉ fr4.names ∧ (ColName.rv w3) ∉ fr4.names
          ∧ (ColName.vov w3) ∉ fr4.names ∧ (ColName.z_ret w3) ∉ fr4.names := by
        intro w3 hw3
        have hww : w3 ≠ w := fun he => hwne (he ▸ hw3)
        obtain ⟨g1, g2, g3, g4⟩ := hfreshIn w3 (by simp [hw3])
        rw [hn4]
        refine ⟨?_, ?_, ?_, ?_⟩ <;> simp [List.mem_append, g1, g2, g3, g4, hww]
      rw [hnames hfresh4, hn4, featNames]
      simp
    · intro n hwfIn hpn
      have l1 := length_setPairs_vals fr.cols (.mom w) (momS p w) n
        (by rw [length_momS, hpn]) hwfIn
      have l2 := length_setPairs_vals _ (.rv w) (rvS p w) n
        (by rw [length_rvS, hpn]) l1
      have l3 := length_setPairs_vals _ (.vov w) (vovS p w) n
        (by rw [length_vovS, hpn]) l2
      have l4 := length_setPairs_vals _ (.z_ret w) (zS p w) n
        (by rw [length_zS, hpn]) l3
      exact hwf n l4 hpn

/-! ## Characterization of `compute_standard_features` -/

theorem price_col_cases (df : Frame) :
    price_col df = .adj_close ∨ price_col df = .adjusted_close
      ∨ price_col df = .close := by
  unfold price_col
  split
  · exact Or.inl rfl
  · split
    · exact Or.inr (Or.inl rfl)
    · exact Or.inr (Or.inr rfl)

theorem getPairs_mem (l : List (ColName × List Cell)) (c : ColName) (v : List Cell)
    (h : getPairs l c = some v) : ∃ p ∈ l, p.2 = v := by
  induction l with
  | nil => simp [getPairs] at h
  | cons p rest ih =>
    by_cases hp : p.1 = c
    · rw [getPairs, if_pos hp] at h
      exact ⟨p, by simp, by simpa using h⟩
    · rw [getPairs, if_neg hp] at h
      obtain ⟨q, hq, hv⟩ := ih h
      exact ⟨q, by simp [hq], hv⟩

theorem sortByDate_col_lengths (f : Frame) (n : ℕ)
    (hwf : ∀ q ∈ f.cols, q.2.length = n) (hdate : f.hasCol .date = true) :
    ∀ q ∈ f.sortByDate.cols, q.2.length = n := by
  obtain ⟨d, hd⟩ := Option.isSome_iff_exists.mp (by rw [← Frame.hasCol, hdate])
  have hdn : d.length = n := by
    obtain ⟨q, hq, hv⟩ := getPairs_mem f.cols .date d hd
    rw [← hv]
    exact hwf q hq
  have hperm : (Frame.sortPerm f).length = n := by
    rw [Frame.sortPerm, hd]
    simp [List.length_insertionSort, hdn]
  intro q hq
  rw [Frame.sortByDate] at hq
  simp only [List.mem_map] at hq
  obtain ⟨r, _, hr⟩ := hq
  rw [← hr]
  simp [Frame.permuteCol, hperm]

theorem sortByDate_length_date_col (f : Frame) (p : List Cell) (c : ColName)
    (hp : f.sortByDate.getCol c = some p) (n : ℕ)
    (hwf : ∀ q ∈ f.cols, q.2.length = n) (hdate : f.hasCol .date = true) :
    p.length = n := by
  obtain ⟨q, hq, hv⟩ := getPairs_mem _ c p hp
  rw [← hv]
  exact sortByDate_col_lengths f n hwf hdate q hq

/-- The full characterization of a successful `compute_standard_features` run
on a non-empty frame: the result holds the feature series of the sorted price
column `p` (each passed through the final infinity cleanup), its column list
extends the input's by `ret`, `logret` and the four per-window labels in
order, and every output column has the input's common length. -/
theorem csf_ok_char (df : Frame) (ws : List ℕ) (p : List Cell)
    (hne : df.isEmpty = false)
    (hdate : df.hasCol .date = true)
    (hp : df.sortByDate.getCol (price_col df) = some p)
    (hwpos : ∀ w ∈ ws, 1 ≤ w)
    (hnd : ws.Nodup) :
    ∃ F, compute_standard_features df ws = .ok F
      ∧ F.getCol .ret = some ((retS p).map Cell.fixInf)
      ∧ F.getCol .logret = some ((logretS p).map Cell.fixInf)
      ∧ (∀ w ∈ ws, F.getCol (.mom w) = some ((momS p w).map Cell.fixInf)
          ∧ F.getCol (.rv w) = some ((rvS p w).map Cell.fixInf)
          ∧ F.getCol (.vov w) = some ((vovS p w).map Cell.fixInf)
          ∧ F.getCol (.z_ret w) = some ((zS p w).map Cell.fixInf))
      ∧ ((ColName.ret ∉ df.names → ColName.logret ∉ df.names →
          (∀ w ∈ ws, (ColName.mom w) ∉ df.names ∧ (ColName.rv w) ∉ df.names
            ∧ (ColName.vov w) ∉ df.names ∧ (ColName.z_ret w) ∉ df.names) →
          F.names = df.names ++ [ColName.ret, ColName.logret] ++ featNames ws))
      ∧ (∀ n : ℕ, (∀ q ∈ df.cols, q.2.length = n) →
          (∀ q ∈ F.cols, q.2.length = n)) := by
  have hpc := price_col_cases df
  have hsort : df.sortByDate.getCol (price_col df) = some p := hp
  have hfr1 : (df.sortByDate.setCol .ret (pctChange 1 p)).getCol (price_col df)
      = some p := by
    rw [Frame.getCol_setCol_ne _ _ _ _ (by rcases hpc with h | h | h <;> simp [h]), hsort]
  set fr2 : Frame := (df.sortByDate.setCol .ret (pctChange 1 p)).setCol .logret
    (diffList (p.map Cell.npLog)) with hfr2def
  have hfr2price : fr2.getCol (price_col df) = some p := by
    rw [hfr2def, Frame.getCol_setCol_ne _ _ _ _ (by rcases hpc with h | h | h <;> simp [h]),
      hfr1]
  have hfr2ret : fr2.getCol .ret = some (retS p) := by
    rw [hfr2def, Frame.getCol_setCol_ne _ _ _ _ (by simp), Frame.getCol_setCol_self]
    rfl
  have hfr2log : fr2.getCol .logret = some (logretS p) := by
    rw [hfr2def, Frame.getCol_setCol_self]
    rfl
  obtain ⟨frF, hfold, hpres, hcols, hnames, hwf⟩ :=
    foldl_addWindow (price_col df) p hpc ws fr2 hfr2price hfr2ret hfr2log hwpos hnd
  have hrun : compute_standard_features df ws = .ok (frF.mapCells Cell.fixInf) := by
    rw [compute_standard_features, if_neg (by simp [hne]), csf_core,
      if_neg (by simp [hdate])]
    simp only [hsort]
    rw [← hfr2def, hfold]
  refine ⟨frF.mapCells Cell.fixInf, hrun, ?_, ?_, ?_, ?_, ?_⟩
  · rw [Frame.getCol_mapCells]
    have : frF.getCol .ret = some (retS p) := by
      rw [hpres .ret ?_, hfr2ret]
      intro w hw
      exact ⟨by simp, by simp, by simp, by simp⟩
    rw [this]
    rfl
  · rw [Frame.getCol_mapCells]
    have : frF.getCol .logret = some (logretS p) := by
      rw [hpres .logret ?_, hfr2log]
      intro w hw
      exact ⟨by simp, by simp, by simp, by simp⟩
    rw [this]
    rfl
  · intro w hw
    obtain ⟨h1, h2, h3, h4⟩ := hcols w hw
    refine ⟨?_, ?_, ?_, ?_⟩ <;> rw [Frame.getCol_mapCells]
    · rw [h1]; rfl
    · rw [h2]; rfl
    · rw [h3]; rfl
    · rw [h4]; rfl
  · intro hret hlog hfeat
    have hn2 : fr2.names = df.names ++ [ColName.ret, ColName.logret] := by
      have e1 : (df.sortByDate.setCol .ret (pctChange 1 p)).names
          = df.names ++ [ColName.ret] := by
        rw [names_setCol_not_mem _ _ _ (by rw [Frame.names_sortByDate]; exact hret),
          Frame.names_sortByDate]
      rw [hfr2def, names_setCol_not_mem _ _ _ (by rw [e1]; simp [hlog]), e1]
      simp
    have hfeat2 : ∀ w ∈ ws, (ColName.mom w) ∉ fr2.names ∧ (ColName.rv w) ∉ fr2.names
        ∧ (ColName.vov w) ∉ fr2.names ∧ (ColName.z_ret w) ∉ fr2.names := by
      intro w hw
      obtain ⟨g1, g2, g3, g4⟩ := hfeat w hw
      rw [hn2]
      refine ⟨?_, ?_, ?_, ?_⟩ <;> simp [List.mem_append, g1, g2, g3, g4]
    rw [Frame.names_mapCells, hnames hfeat2, hn2]
  · intro n hwfIn
    have hsortwf := sortByDate_col_lengths df n hwfIn hdate
    have hpn : p.length = n := sortByDate_length_date_col df p _ hp n hwfIn hdate
    have l1 := length_setPairs_vals df.sortByDate.cols .ret (pctChange 1 p) n
      (by rw [length_pctChange, hpn]) hsortwf
    have l2 := length_setPairs_vals _ .logret (diffList (p.map Cell.npLog)) n
      (by rw [show diffList (p.map Cell.npLog) = logretS p from rfl, length_logretS, hpn]) l1
    have lF := hwf n l2 hpn
    intro q hq
    rw [Frame.mapCells] at hq
    simp only [List.mem_map] at hq
    obtain ⟨r, hr, hrq⟩ := hq
    rw [← hrq]
    simp [lF r hr]

/-! ## Validity helpers for the claim statements -/

/-- Base (non-derived) column labels of a raw OHLCV table: everything except
the feature labels that `compute_standard_features` assigns. -/
def ColName.isBase : ColName → Bool
  | .ret => false
  | .logret => false
  | .mom _ => false
  | .rv _ => false
  | .vov _ => false
  | .z_ret _ => false
  | _ => true

theorem not_mem_of_isBase (df : Frame) (hb : ∀ c ∈ df.names, c.isBase = true) :
    ColName.ret ∉ df.names ∧ ColName.logret ∉ df.names
      ∧ ∀ w : ℕ, (ColName.mom w) ∉ df.names ∧ (ColName.rv w) ∉ df.names
          ∧ (ColName.vov w) ∉ df.names ∧ (ColName.z_ret w) ∉ df.names := by
  refine ⟨fun h => by simpa [ColName.isBase] using hb _ h,
    fun h => by simpa [ColName.isBase] using hb _ h, fun w =>
    ⟨fun h => by simpa [ColName.isBase] using hb _ h,
     fun h => by simpa [ColName.isBase] using hb _ h,
     fun h => by simpa [ColName.isBase] using hb _ h,
     fun h => by simpa [ColName.isBase] using hb _ h⟩⟩

theorem nrows_of_all_lengths (F : Frame) (n : ℕ)
    (h : ∀ q ∈ F.cols, q.2.length = n) (hne : F.cols ≠ []) : F.nrows = n := by
  cases hc : F.cols with
  | nil => exact absurd hc hne
  | cons q rest =>
    rw [Frame.nrows, hc]
    exact h q (by rw [hc]; simp)

/-! ## The claims -/

/-- **C5.** `compute_standard_features` is a pure, deterministic function of
its input table and windows: two calls on equal inputs and equal windows
produce identical outputs (in this embedding the function takes no other
arguments and touches no state, so recomputing from the same input is the
same application). -/
theorem C5_deterministic_idempotent (df1 df2 : Frame) (ws1 ws2 : List ℕ)
    (hdf : df1 = df2) (hws : ws1 = ws2) :
    compute_standard_features df1 ws1 = compute_standard_features df2 ws2 := by
  subst hdf
  subst hws
  rfl

/-- Concrete instantiation of `C5_deterministic_idempotent`. -/
theorem C5_deterministic_idempotent_witness :
    compute_standard_features ⟨[(.date, [.num 0]), (.close, [.num 1])]⟩ [5, 20, 60]
      = compute_standard_features ⟨[(.date, [.num 0]), (.close, [.num 1])]⟩ [5, 20, 60] :=
  C5_deterministic_idempotent _ _ _ _ rfl rfl

/-- A table that has an `adjusted_close` column and a `close` column but no
`adj_close` column. -/
def dfAdjusted : Frame :=
  ⟨[(.date, [.num 0]), (.ticker, [.str "A"]),
    (.adjusted_close, [.num 1]), (.close, [.num 2])]⟩

/-- **C2** fails on the code: on a table with `adjusted_close` but no
`adj_close`, `compute_standard_features` (via `_price_col`) selects
`adjusted_close` but `rolling_pairwise_correlation` selects `close` — its
selection never considers `adjusted_close`. -/
theorem C2_counterexample_price_column :
    dfAdjusted.hasCol .adjusted_close = true
      ∧ dfAdjusted.hasCol .adj_close = false
      ∧ price_col dfAdjusted = .adjusted_close
      ∧ rpc_price_col dfAdjusted = .close
      ∧ rpc_price_col dfAdjusted ≠ .adjusted_close := by
  refine ⟨rfl, rfl, rfl, rfl, by decide⟩

/-- **C2** (amended). `compute_standard_features` selects the price column by
the priority `adj_close`, else `adjusted_close`, else `close`, but
`rolling_pairwise_correlation` selects `adj_close` else `close`: on every
table containing `adjusted_close` but not `adj_close`, the former uses
`adjusted_close` while the latter uses `close`. -/
theorem C2_amended_price_column_divergence (df : Frame)
    (h1 : df.hasCol .adjusted_close = true) (h2 : df.hasCol .adj_close = false) :
    price_col df = .adjusted_close ∧ rpc_price_col df = .close := by
  constructor
  · rw [price_col]
    simp [h1, h2]
  · rw [rpc_price_col]
    simp [h2]

/-- Concrete instantiation of `C2_amended_price_column_divergence`. -/
theorem C2_amended_price_column_divergence_witness :
    price_col dfAdjusted = .adjusted_close ∧ rpc_price_col dfAdjusted = .close :=
  C2_amended_price_column_divergence dfAdjusted rfl rfl

theorem batch_compute_foldl (fetch : String → Frame) (windows : Option (List ℕ)) :
    ∀ (l : List String) (acc : List String),
      l.foldl (fun succeeded t =>
        let raw := fetch t
        if raw.isEmpty then succeeded
        else
          match compute_and_store windows t raw with
          | .ok _ => succeeded ++ [t]
          | .error _ => succeeded) acc
      = acc ++ l.filter (fun t => !(fetch t).isEmpty
          && (compute_and_store windows t (fetch t)).isOk) := by
  intro l
  induction l with
  | nil =>
    intro acc
    simp
  | cons t rest ih =>
    intro acc
    rw [List.foldl_cons, List.filter_cons]
    by_cases he : (fetch t).isEmpty
    · simp [he, ih acc]
    · simp only [Bool.not_eq_true] at he
      cases hc : compute_and_store windows t (fetch t) with
      | ok F => simp [he, hc, ih (acc ++ [t]), Except.isOk, Except.toBool]
      | error e => simp [he, hc, ih acc, Except.isOk, Except.toBool]

/-- **C9.** `FeatureStore.batch_compute` returns exactly the tickers whose
fetch produced non-empty raw data and whose compute-and-store step did not
raise, in input order: it equals a filter of the input ticker list. -/
theorem C9_batch_compute_succeeded (fetch : String → Frame)
    (windows : Option (List ℕ)) (tickers : List String) :
    batch_compute fetch windows tickers
      = tickers.filter (fun t => !(fetch t).isEmpty
          && (compute_and_store windows t (fetch t)).isOk) := by
  rw [batch_compute, batch_compute_foldl]
  rfl

theorem getD_append_left_frames (l l2 : List Frame) (r : ℕ) (hr : r < l.length)
    (d : Frame) : (l ++ l2).getD r d = l.getD r d := by
  simp [List.getD_eq_getElem?_getD, List.getElem?_append_left hr]

theorem getD_set_ne_frames (l : List Frame) (i j : ℕ) (hij : i ≠ j) (x d : Frame) :
    (l.set i x).getD j d = l.getD j d := by
  simp [List.getD_eq_getElem?_getD, List.getElem?_set_ne hij]

/-- **C10.** `compute_standard_features` never mutates the caller's frame
object: in the heap model, the slot of the argument reference holds exactly
the same frame after the call as before it (the copy taken at entry severs
aliasing, so every write lands in the fresh slot; the empty case returns the
argument object itself, untouched). -/
theorem C10_no_mutation_of_argument (h : List Frame) (r : ℕ) (ws : List ℕ)
    (hr : r < h.length) :
    (csf_heap h r ws).1.getD r Frame.emptyFrame = h.getD r Frame.emptyFrame := by
  rw [csf_heap]
  by_cases he : (h.getD r Frame.emptyFrame).isEmpty
  · rw [if_pos he]
  · rw [if_neg he]
    cases hc : csf_core (h.getD r Frame.emptyFrame) ws with
    | error e =>
      exact getD_append_left_frames h _ r hr Frame.emptyFrame
    | ok F =>
      rw [getD_set_ne_frames _ _ _ (by omega) F Frame.emptyFrame]
      exact getD_append_left_frames h _ r hr Frame.emptyFrame

/-- Concrete instantiation of `C10_no_mutation_of_argument`. -/
theorem C10_no_mutation_of_argument_witness :
    (csf_heap [⟨[(.date, [.num 0]), (.close, [.num 1])]⟩] 0 [5]).1.getD 0
        Frame.emptyFrame
      = [(⟨[(.date, [.num 0]), (.close, [.num 1])]⟩ : Frame)].getD 0
          Frame.emptyFrame :=
  C10_no_mutation_of_argument _ 0 [5] (by simp)

theorem addWindowFeats_isOk (pc : ColName) (fr : Frame) (w : ℕ) (hw : 1 ≤ w) :
    ∃ fr2, addWindowFeats pc fr w = .ok fr2 := by
  rw [addWindowFeats, if_neg (by rw [minPeriods]; omega)]
  exact ⟨_, rfl⟩

theorem foldl_addWindow_isOk (pc : ColName) :
    ∀ (ws : List ℕ) (fr : Frame), (∀ w ∈ ws, 1 ≤ w) →
      ∃ frF, ws.foldlM (addWindowFeats pc) fr = .ok frF := by
  intro ws
  induction ws with
  | nil =>
    intro fr _
    exact ⟨fr, rfl⟩
  | cons w rest ih =>
    intro fr hwpos
    obtain ⟨fr2, hfr2⟩ := addWindowFeats_isOk pc fr w (hwpos w (by simp))
    obtain ⟨frF, hfrF⟩ := ih fr2 (fun w2 hw2 => hwpos w2 (by simp [hw2]))
    refine ⟨frF, ?_⟩
    rw [List.foldlM_cons, hfr2]
    simpa using hfrF

/-- **C6.** On a non-empty table with none of the recognized price columns,
`compute_standard_features` fails with a `KeyError` (for the missing `Date`
column, or for the `close` fallback that `_price_col` returns); and it never
raises on tables that do have a `Date` column and their selected price
column — short history and zero variance degrade to NaN cells, not
exceptions. -/
theorem C6_missing_price_errors_tolerable_degrade :
    (∀ (df : Frame) (ws : List ℕ), df.isEmpty = false →
      df.hasCol .adj_close = false → df.hasCol .adjusted_close = false →
      df.hasCol .close = false →
      compute_standard_features df ws = .error (.keyError .date)
        ∨ compute_standard_features df ws = .error (.keyError .close))
    ∧ (∀ (df : Frame) (ws : List ℕ), df.hasCol .date = true →
      df.hasCol (price_col df) = true → (∀ w ∈ ws, 1 ≤ w) →
      ∃ F, compute_standard_features df ws = .ok F) := by
  constructor
  · intro df ws hne h1 h2 h3
    have hpc : price_col df = .close := by
      rw [price_col]
      simp [h1, h2]
    rw [compute_standard_features, if_neg (by simp [hne]), csf_core]
    by_cases hd : df.hasCol .date
    · right
      rw [if_neg (by simp [hd])]
      have hnone : df.sortByDate.getCol (price_col df) = none := by
        have : (df.sortByDate.getCol (price_col df)).isSome = false := by
          rw [Frame.getCol_sortByDate_isSome, hpc, ← Frame.hasCol, h3]
        simpa [Option.isSome_iff_exists] using this
      rw [hpc] at hnone
      simp only [hpc, hnone]
    · left
      rw [if_pos (by simpa using hd)]
  · intro df ws hdate hprice hwpos
    by_cases hne : df.isEmpty
    · exact ⟨df, by rw [compute_standard_features, if_pos hne]⟩
    · have hps : (df.sortByDate.getCol (price_col df)).isSome = true := by
        rw [Frame.getCol_sortByDate_isSome, ← Frame.hasCol, hprice]
      obtain ⟨p, hp⟩ := Option.isSome_iff_exists.mp hps
      obtain ⟨frF, hfold⟩ := foldl_addWindow_isOk (price_col df) ws
        ((df.sortByDate.setCol .ret (pctChange 1 p)).setCol .logret
          (diffList (p.map Cell.npLog))) hwpos
      refine ⟨frF.mapCells Cell.fixInf, ?_⟩
      rw [compute_standard_features, if_neg hne, csf_core,
        if_neg (by simp [hdate])]
      simp only [hp]
      rw [hfold]

/-- Concrete instantiation of `C6_missing_price_errors_tolerable_degrade`:
a non-empty table with no price column errors, and a short two-row table with
a price column succeeds. -/
theorem C6_missing_price_errors_tolerable_degrade_witness :
    (compute_standard_features ⟨[(.date, [.num 0]), (.volume, [.num 1])]⟩ [5]
        = .error (.keyError .date)
      ∨ compute_standard_features ⟨[(.date, [.num 0]), (.volume, [.num 1])]⟩ [5]
        = .error (.keyError .close))
    ∧ ∃ F, compute_standard_features ⟨[(.date, [.num 0, .num 1]),
        (.close, [.num 1, .num 1])]⟩ [5, 20, 60] = .ok F :=
  ⟨C6_missing_price_errors_tolerable_degrade.1 _ [5] rfl rfl rfl rfl,
   C6_missing_price_errors_tolerable_degrade.2 _ [5, 20, 60] rfl rfl
     (by decide)⟩

/-- **C7.** On a well-keyed long-format table (the pivot precondition: one row
per (Date, ticker) pair), requesting `rolling_pairwise_correlation` for a
pair of tickers of which at least one is absent from the `ticker` column
raises the missing-ticker `KeyError` — it never returns a result. -/
theorem C7_missing_ticker_key_error (df : Frame) (left right : String)
    (window : ℕ) (dates ticks vals : List Cell)
    (hd : df.getCol .date = some dates)
    (ht : df.getCol .ticker = some ticks)
    (hv : df.getCol (rpc_price_col df) = some vals)
    (hnd : (dates.zip ticks).Nodup)
    (habs : Cell.str left ∉ ticks ∨ Cell.str right ∉ ticks) :
    rolling_pairwise_correlation df left right window
      = .error (.keyErrorTickers left right) := by
  rw [rolling_pairwise_correlation]
  simp only [hd, ht, hv]
  rw [if_neg (by simpa using hnd), if_pos (by tauto)]

/-- Concrete instantiation of `C7_missing_ticker_key_error`: ticker `B` is
absent from a one-ticker table. -/
theorem C7_missing_ticker_key_error_witness :
    rolling_pairwise_correlation
        ⟨[(.date, [.num 0, .num 1]), (.ticker, [.str "A", .str "A"]),
          (.close, [.num 1, .num 2])]⟩ "A" "B" 20
      = .error (.keyErrorTickers "A" "B") :=
  C7_missing_ticker_key_error _ "A" "B" 20 _ _ _ rfl rfl rfl (by decide)
    (by decide)

/-- A valid one-row OHLCV table. -/
def dfOneRow : Frame := ⟨[(.date, [.num 0]), (.close, [.num 1])]⟩

/-- **C3** fails on the code as universally stated: with the duplicate window
list `[5, 5]` the second iteration overwrites the first one's columns, so
only `2 + 4` columns are added instead of `2 + 4*len(windows) = 10`. -/
theorem C3_counterexample_duplicate_windows :
    ((compute_standard_features dfOneRow [5, 5]).toOption.map
        (fun F => F.names.length)) = some 8
      ∧ 8 ≠ dfOneRow.names.length + (2 + 4 * [5, 5].length) := by
  constructor
  · decide
  · decide

/-- **C3** (amended). For every valid non-empty single-ticker OHLCV table
(equal column lengths, only base column labels, `Date` and the selected price
column present) and every duplicate-free list of positive windows,
`compute_standard_features` succeeds, preserves the row count, and adds
exactly `2 + 4*len(windows)` columns; the empty table is returned unchanged
without error. -/
theorem C3_amended_shape :
    (∀ (df : Frame) (ws : List ℕ),
      df.isEmpty = false →
      Frame.WF df →
      (∀ c ∈ df.names, c.isBase = true) →
      df.hasCol .date = true →
      df.hasCol (price_col df) = true →
      (∀ w ∈ ws, 1 ≤ w) →
      ws.Nodup →
      ∃ F, compute_standard_features df ws = .ok F
        ∧ F.nrows = df.nrows
        ∧ F.names.length = df.names.length + (2 + 4 * ws.length))
    ∧ (∀ (df : Frame) (ws : List ℕ), df.isEmpty = true →
      compute_standard_features df ws = .ok df) := by
  constructor
  · intro df ws hne hwf hbase hdate hprice hwpos hnd
    have hps : (df.sortByDate.getCol (price_col df)).isSome = true := by
      rw [Frame.getCol_sortByDate_isSome, ← Frame.hasCol, hprice]
    obtain ⟨p, hp⟩ := Option.isSome_iff_exists.mp hps
    obtain ⟨F, hrun, _, _, _, hnames, hlens⟩ :=
      csf_ok_char df ws p hne hdate hp hwpos hnd
    obtain ⟨hbret, hblog, hbfeat⟩ := not_mem_of_isBase df hbase
    have hnamesF : F.names = df.names ++ [ColName.ret, ColName.logret] ++ featNames ws :=
      hnames hbret hblog (fun w _ => hbfeat w)
    have hlenF : F.names.length = df.names.length + (2 + 4 * ws.length) := by
      rw [hnamesF]
      simp [length_featNames]
      omega
    refine ⟨F, hrun, ?_, hlenF⟩
    have hFcols : ∀ q ∈ F.cols, q.2.length = df.nrows := hlens df.nrows hwf
    have hFne : F.cols ≠ [] := by
      intro hnil
      have : F.names.length = 0 := by
        rw [Frame.names, hnil]
        rfl
      omega
    exact nrows_of_all_lengths F df.nrows hFcols hFne
  · intro df ws he
    rw [compute_standard_features, if_pos he]

/-- Concrete instantiation of `C3_amended_shape`. -/
theorem C3_amended_shape_witness :
    (∃ F, compute_standard_features dfOneRow [5] = .ok F
      ∧ F.nrows = dfOneRow.nrows
      ∧ F.names.length = dfOneRow.names.length + (2 + 4 * [5].length))
    ∧ compute_standard_features Frame.emptyFrame [5] = .ok Frame.emptyFrame :=
  ⟨C3_amended_shape.1 dfOneRow [5] rfl (by unfold Frame.WF; decide) (by decide)
    rfl rfl (by decide) (by decide),
   C3_amended_shape.2 Frame.emptyFrame [5] rfl⟩

/-- A valid three-row OHLCV table with strictly increasing positive prices. -/
def dfThreeRow : Frame :=
  ⟨[(.date, [.num 0, .num 1, .num 2]), (.close, [.num 1, .num 2, .num 3])]⟩

/-- **C1** fails on the code: with `w = 5` the claim predicts `rv_5` defined
from row `max(1, 5//2) - 1 = 1` on, but `logret[0]` is NaN, so row 1's window
holds a single observation — fewer than `min_periods = 2` — and `rv_5[1]` is
NaN. -/
theorem C1_counterexample_rv_warmup :
    ((compute_standard_features dfThreeRow [5]).toOption.map
        (fun F => (F.cell (.rv 5) 1).isNan)) = some true
      ∧ ((compute_standard_features dfThreeRow [5]).toOption.map Frame.nrows)
          = some 3
      ∧ max 1 (5 / 2) - 1 ≤ 1 := by
  refine ⟨by decide, by decide, by decide⟩

/-- **C1** (amended).  For every non-empty table whose sorted price column is
positive and finite, and every window `w ≥ 2` of the duplicate-free positive
window list: `ret` is NaN exactly at row 0, `mom_w` exactly at rows
`0..w-1`, and `rv_w` exactly at the first `max(2, w//2)` rows (one more than
the claimed `max(1, w//2) - 1` because `logret[0]` is NaN and the sample std
needs two observations); `z_ret_w` likewise is NaN exactly at the first
`max(2, w//2)` rows provided the trailing rolling variance of `ret` is
nonzero from that row on. -/
theorem C1_amended_undefined_prefixes (df : Frame) (ws : List ℕ) (p : List Cell)
    (w : ℕ)
    (hne : df.isEmpty = false)
    (hdate : df.hasCol .date = true)
    (hp : df.sortByDate.getCol (price_col df) = some p)
    (hpos : posNumList p)
    (hwpos : ∀ w2 ∈ ws, 1 ≤ w2)
    (hnd : ws.Nodup)
    (hw : w ∈ ws) (hw2 : 2 ≤ w)
    (hvar : ∀ i, i < p.length → max 2 (w / 2) ≤ i →
      sampleVarQ (obsList (winSlice (retS p) w i)) ≠ 0) :
    ∃ F, compute_standard_features df ws = .ok F
      ∧ (∀ i, i < p.length → ((F.cell .ret i).isNan = true ↔ i = 0))
      ∧ (∀ i, i < p.length → ((F.cell (.mom w) i).isNan = true ↔ i < w))
      ∧ (∀ i, i < p.length → ((F.cell (.rv w) i).isNan = true ↔ i < max 2 (w / 2)))
      ∧ (∀ i, i < p.length →
          ((F.cell (.z_ret w) i).isNan = true ↔ i < max 2 (w / 2))) := by
  obtain ⟨F, hrun, hretF, _, hcolsF, _, _⟩ := csf_ok_char df ws p hne hdate hp hwpos hnd
  obtain ⟨hmomF, hrvF, _, hzF⟩ := hcolsF w hw
  have hcond : ∀ i, (min i w < max (minPeriods w) 2) ↔ (i < max 2 (w / 2)) := by
    intro i
    rw [minPeriods]
    omega
  refine ⟨F, hrun, ?_, ?_, ?_, ?_⟩
  · intro i hi
    rw [Frame.cell, hretF, Option.getD_some,
      getD_map_of_lt _ _ i (by rw [length_retS]; exact hi) .nan .nan]
    by_cases h0 : i = 0
    · subst h0
      rw [show retS p = pctChange 1 p from rfl, pctChange_getD_lt 1 p 0 (by omega) hi]
      simp [Cell.fixInf, Cell.isNan]
    · obtain ⟨q, hq⟩ := pctChange_getD_ge 1 p hpos i (by omega) hi
      rw [show retS p = pctChange 1 p from rfl, hq]
      simp [Cell.fixInf, Cell.isNan, h0]
  · intro i hi
    rw [Frame.cell, hmomF, Option.getD_some,
      getD_map_of_lt _ _ i (by rw [length_momS]; exact hi) .nan .nan]
    by_cases hltw : i < w
    · rw [show momS p w = pctChange w p from rfl, pctChange_getD_lt w p i hltw hi]
      simp [Cell.fixInf, Cell.isNan, hltw]
    · obtain ⟨q, hq⟩ := pctChange_getD_ge w p hpos i (by omega) hi
      rw [show momS p w = pctChange w p from rfl, hq]
      simp [Cell.fixInf, Cell.isNan, hltw]
  · intro i hi
    rw [Frame.cell, hrvF, Option.getD_some,
      getD_map_of_lt _ _ i (by rw [length_rvS]; exact hi) .nan .nan]
    rw [rvS_getD p w hpos i hi]
    by_cases hlt : i < max 2 (w / 2)
    · rw [if_pos ((hcond i).mpr hlt)]
      simp [Cell.fixInf, Cell.isNan, hlt]
    · rw [if_neg (fun hc => hlt ((hcond i).mp hc))]
      simp [Cell.fixInf, Cell.isNan, hlt]
  · intro i hi
    rw [Frame.cell, hzF, Option.getD_some,
      getD_map_of_lt _ _ i (by rw [length_zS]; exact hi) .nan .nan]
    by_cases hlt : i < max 2 (w / 2)
    · rw [zS_getD_lt p w hpos i hi ((hcond i).mpr hlt)]
      simp [Cell.fixInf, Cell.isNan, hlt]
    · have hnum := zS_getD_isNum p w hpos (by omega) i hi
        (fun hc => hlt ((hcond i).mp hc)) (hvar i hi (by omega))
      rw [Cell.fixInf_of_isNum _ hnum]
      rw [Cell.isNan_false_of_isNum _ hnum]
      simp [hlt]

/-- Concrete instantiation of `C1_amended_undefined_prefixes` on the
three-row table with prices 1, 2, 3 and `w = 5`. -/
theorem C1_amended_undefined_prefixes_witness :
    ∃ F, compute_standard_features dfThreeRow [5] = .ok F
      ∧ (∀ i, i < ([Cell.num 1, Cell.num 2, Cell.num 3] : List Cell).length →
          ((F.cell .ret i).isNan = true ↔ i = 0))
      ∧ (∀ i, i < ([Cell.num 1, Cell.num 2, Cell.num 3] : List Cell).length →
          ((F.cell (.mom 5) i).isNan = true ↔ i < 5))
      ∧ (∀ i, i < ([Cell.num 1, Cell.num 2, Cell.num 3] : List Cell).length →
          ((F.cell (.rv 5) i).isNan = true ↔ i < max 2 (5 / 2)))
      ∧ (∀ i, i < ([Cell.num 1, Cell.num 2, Cell.num 3] : List Cell).length →
          ((F.cell (.z_ret 5) i).isNan = true ↔ i < max 2 (5 / 2))) := by
  apply C1_amended_undefined_prefixes dfThreeRow [5]
    [Cell.num 1, Cell.num 2, Cell.num 3] 5 rfl rfl (by decide)
    (by unfold posNumList; decide) (by decide) (by decide) (by decide) (by decide)
  intro i h1 h2
  simp only [List.length_cons, List.length_nil] at h1
  have hi2 : i = 2 := by omega
  subst hi2
  have hr : retS [Cell.num 1, Cell.num 2, Cell.num 3]
      = [Cell.nan, Cell.num 1, Cell.num (1/2)] := by
    norm_num [retS, pctChange, List.range_succ, Cell.cdiv, Cell.csub, Cell.cadd,
      Cell.cneg]
  rw [hr]
  norm_num [winSlice, obsList, sampleVarQ, List.filterMap_cons, List.filterMap_nil]

theorem csf_core_ok_shape (df : Frame) (ws : List ℕ) (F : Frame)
    (h : csf_core df ws = .ok F) : ∃ G, F = Frame.mapCells Cell.fixInf G := by
  simp only [csf_core] at h
  split at h
  · exact absurd h (by simp)
  · split at h
    · exact absurd h (by simp)
    · split at h
      · exact absurd h (by simp)
      · injection h with h2
        exact ⟨_, h2.symm⟩

/-- **C4.** No `+inf`/`-inf` value ever appears in the output of
`compute_standard_features` (the final replace maps both infinities to NaN,
and an empty well-formed input has no cells); and whenever the trailing
rolling std of `ret` over window `w` is exactly zero at a row, `z_ret_w` at
that row is NaN — the zero is replaced by NaN before dividing, not divided
through. -/
theorem C4_no_infinities_zero_std_nan :
    (∀ (df : Frame) (ws : List ℕ) (F : Frame), Frame.WF df →
      compute_standard_features df ws = .ok F →
      ∀ col ∈ F.cols, ∀ c ∈ col.2, c.isInf = false)
    ∧ (∀ (df : Frame) (ws : List ℕ) (p : List Cell) (w : ℕ) (i : ℕ),
      df.isEmpty = false → df.hasCol .date = true →
      df.sortByDate.getCol (price_col df) = some p →
      (∀ w2 ∈ ws, 1 ≤ w2) → ws.Nodup → w ∈ ws → i < p.length →
      (rollingStd w (minPeriods w) (retS p)).getD i .nan = .num 0 →
      ∃ F, compute_standard_features df ws = .ok F
        ∧ F.cell (.z_ret w) i = .nan) := by
  constructor
  · intro df ws F hwf hrun col hcol c hc
    rw [compute_standard_features] at hrun
    by_cases he : df.isEmpty
    · rw [if_pos he] at hrun
      injection hrun with hF
      subst hF
      have heOr : df.cols.isEmpty = true ∨ (df.nrows == 0) = true := by
        simpa [Frame.isEmpty] using he
      rcases heOr with he2 | he2
      · rw [List.isEmpty_iff] at he2
        rw [he2] at hcol
        simp at hcol
      · have : col.2.length = 0 := by
          rw [hwf col hcol]
          simpa using he2
        rw [List.length_eq_zero.mp this] at hc
        simp at hc
    · rw [if_neg he] at hrun
      obtain ⟨G, hF⟩ := csf_core_ok_shape df ws F hrun
      subst hF
      rw [Frame.mapCells] at hcol
      simp only [List.mem_map] at hcol
      obtain ⟨q, _, hq⟩ := hcol
      rw [← hq] at hc
      simp only [List.mem_map] at hc
      obtain ⟨x, _, hx⟩ := hc
      rw [← hx]
      exact Cell.isInf_fixInf x
  · intro df ws p w i hne hdate hp hwpos hnd hw hi hstd
    obtain ⟨F, hrun, _, _, hcolsF, _, _⟩ := csf_ok_char df ws p hne hdate hp hwpos hnd
    obtain ⟨_, _, _, hzF⟩ := hcolsF w hw
    refine ⟨F, hrun, ?_⟩
    rw [Frame.cell, hzF, Option.getD_some,
      getD_map_of_lt _ _ i (by rw [length_zS]; exact hi) .nan .nan,
      zS_getD_stdZero p w i hi hstd]
    rfl

/-- A table whose simple returns are constant (prices 1, 2, 4), so the
rolling std of `ret` is exactly zero at row 2. -/
def dfConstRet : Frame :=
  ⟨[(.date, [.num 0, .num 1, .num 2]), (.close, [.num 1, .num 2, .num 4])]⟩

/-- Concrete instantiation of `C4_no_infinities_zero_std_nan`. -/
theorem C4_no_infinities_zero_std_nan_witness :
    (∀ col ∈ (Frame.emptyFrame).cols, ∀ c ∈ col.2, c.isInf = false)
    ∧ (∃ F, compute_standard_features dfConstRet [5] = .ok F
        ∧ F.cell (.z_ret 5) 2 = .nan) := by
  constructor
  · exact C4_no_infinities_zero_std_nan.1 Frame.emptyFrame [5] Frame.emptyFrame
      (by intro q hq; simp [Frame.emptyFrame] at hq) rfl
  · apply C4_no_infinities_zero_std_nan.2 dfConstRet [5]
      [Cell.num 1, Cell.num 2, Cell.num 4] 5 2 rfl rfl (by decide) (by decide)
      (by decide) (by decide) (by decide)
    rw [rollingStd_retS_getD [Cell.num 1, Cell.num 2, Cell.num 4] 5
      (by unfold posNumList; decide) 2 (by decide)]
    rw [if_neg (by decide)]
    have hr : retS [Cell.num 1, Cell.num 2, Cell.num 4]
        = [Cell.nan, Cell.num 1, Cell.num 1] := by
      norm_num [retS, pctChange, List.range_succ, Cell.cdiv, Cell.csub, Cell.cadd,
        Cell.cneg]
    rw [hr]
    norm_num [winSlice, obsList, sampleVarQ, List.filterMap_cons, List.filterMap_nil]

theorem factsetLoop_ordinary (oc : ℕ → Outcome) (na : ℕ)
    (h : ∀ b, b < na → (oc b).isOrdinaryFailure = true) :
    ∀ d a, na - a = d → a < na →
      factsetLoop oc na a = .ok (some Frame.emptyFrame) := by
  intro d
  induction d with
  | zero =>
    intro a hd ha
    omega
  | succ k ih =>
    intro a hd ha
    unfold factsetLoop
    rw [dif_pos ha]
    have ho := h a ha
    cases hoc : oc a <;> rw [hoc] at ho <;>
      simp only [Outcome.isOrdinaryFailure, Bool.false_eq_true] at ho
    case rateLimit =>
      show (if a < na - 1 then factsetLoop oc na (a + 1)
        else Except.ok (some Frame.emptyFrame)) = Except.ok (some Frame.emptyFrame)
      by_cases hl : a < na - 1
      · rw [if_pos hl]
        exact ih (a + 1) (by omega) (by omega)
      · rw [if_neg hl]
    case httpError =>
      show (if a < na - 1 then factsetLoop oc na (a + 1)
        else Except.ok (some Frame.emptyFrame)) = Except.ok (some Frame.emptyFrame)
      by_cases hl : a < na - 1
      · rw [if_pos hl]
        exact ih (a + 1) (by omega) (by omega)
      · rw [if_neg hl]
    case genericError =>
      show (if a < na - 1 then factsetLoop oc na (a + 1)
        else Except.ok (some Frame.emptyFrame)) = Except.ok (some Frame.emptyFrame)
      by_cases hl : a < na - 1
      · rw [if_pos hl]
        exact ih (a + 1) (by omega) (by omega)
      · rw [if_neg hl]

theorem factsetLoop_auth (oc : ℕ → Outcome) (na k : ℕ) (hk : k < na)
    (hauth : oc k = .authError)
    (h : ∀ b, b < k → (oc b).isOrdinaryFailure = true) :
    ∀ d a, k - a = d → a ≤ k → factsetLoop oc na a = .error () := by
  intro d
  induction d with
  | zero =>
    intro a hd ha
    have hak : a = k := by omega
    subst hak
    unfold factsetLoop
    rw [dif_pos hk, hauth]
  | succ kk ih =>
    intro a hd ha
    have hak : a < k := by omega
    unfold factsetLoop
    rw [dif_pos (by omega : a < na)]
    have ho := h a hak
    cases hoc : oc a <;> rw [hoc] at ho <;>
      simp only [Outcome.isOrdinaryFailure, Bool.false_eq_true] at ho
    case rateLimit =>
      show (if a < na - 1 then factsetLoop oc na (a + 1)
        else Except.ok (some Frame.emptyFrame)) = Except.error ()
      rw [if_pos (by omega)]
      exact ih (a + 1) (by omega) (by omega)
    case httpError =>
      show (if a < na - 1 then factsetLoop oc na (a + 1)
        else Except.ok (some Frame.emptyFrame)) = Except.error ()
      rw [if_pos (by omega)]
      exact ih (a + 1) (by omega) (by omega)
    case genericError =>
      show (if a < na - 1 then factsetLoop oc na (a + 1)
        else Except.ok (some Frame.emptyFrame)) = Except.error ()
      rw [if_pos (by omega)]
      exact ih (a + 1) (by omega) (by omega)

theorem yfinanceLoop_failures (oc : ℕ → Outcome) (na : ℕ)
    (h : ∀ b, b < na → (∀ f, oc b ≠ .success f) ∧ oc b ≠ .noData) :
    ∀ d a, na - a = d → a < na →
      yfinanceLoop oc na a = .ok (some Frame.emptyFrame) := by
  intro d
  induction d with
  | zero =>
    intro a hd ha
    omega
  | succ k ih =>
    intro a hd ha
    unfold yfinanceLoop
    rw [dif_pos ha]
    obtain ⟨hs, hn⟩ := h a ha
    cases hoc : oc a
    case success f => exact absurd hoc (hs f)
    case noData => exact absurd hoc hn
    all_goals
      (show (if a < na - 1 then yfinanceLoop oc na (a + 1)
         else Except.ok (some Frame.emptyFrame)) = Except.ok (some Frame.emptyFrame)
       by_cases hl : a < na - 1
       · rw [if_pos hl]
         exact ih (a + 1) (by omega) (by omega)
       · rw [if_neg hl])

/-- **C8** fails on the code for the YFinance provider: its `fetch_ticker`
catches every exception — including authentication failures — retries, and
returns an empty table after exhaustion, instead of raising immediately.
Three attempted authentication failures yield an empty table, not an error. -/
theorem C8_counterexample_yfinance_swallows_auth :
    YFinanceClient.fetch_ticker (fun _ => .authError) 3
        = .ok (some Frame.emptyFrame)
      ∧ YFinanceClient.fetch_ticker (fun _ => .authError) 3 ≠ .error () := by
  have h := yfinanceLoop_failures (fun _ => .authError) 3
    (fun b _ => ⟨fun f => by simp, by simp⟩) 3 0 rfl (by omega)
  exact ⟨h, by rw [YFinanceClient.fetch_ticker, h]; simp⟩

/-- **C8** (amended).  Both providers return an empty table (never raise)
after exhausting the retry budget on ordinary failures (rate limit, HTTP,
generic errors), and return an empty table immediately on a not-found/empty
data response.  `FactSetClient` raises an authentication failure (HTTP 401)
immediately, without consuming the remaining retries; `YFinanceClient` has no
authentication special case — every exception is retried (see the
counterexample). -/
theorem C8_amended_retry_exhaustion_and_auth :
    (∀ (oc : ℕ → Outcome) (na : ℕ), 1 ≤ na →
      (∀ a, a < na → (oc a).isOrdinaryFailure = true) →
      FactSetClient.fetch_ticker oc na = .ok (some Frame.emptyFrame)
        ∧ YFinanceClient.fetch_ticker oc na = .ok (some Frame.emptyFrame))
    ∧ (∀ (oc : ℕ → Outcome) (na k : ℕ), k < na →
      (∀ a, a < k → (oc a).isOrdinaryFailure = true) →
      oc k = .authError →
      FactSetClient.fetch_ticker oc na = .error ())
    ∧ (∀ (oc : ℕ → Outcome) (na : ℕ), 1 ≤ na → oc 0 = .noData →
      FactSetClient.fetch_ticker oc na = .ok (some Frame.emptyFrame)
        ∧ YFinanceClient.fetch_ticker oc na = .ok (some Frame.emptyFrame)) := by
  refine ⟨?_, ?_, ?_⟩
  · intro oc na hna hord
    constructor
    · exact factsetLoop_ordinary oc na hord na 0 rfl (by omega)
    · refine yfinanceLoop_failures oc na (fun b hb => ?_) na 0 rfl (by omega)
      have := hord b hb
      cases hoc : oc b <;> rw [hoc] at this <;>
        simp [Outcome.isOrdinaryFailure] at this ⊢
  · intro oc na k hk hord hauth
    exact factsetLoop_auth oc na k hk hauth hord k 0 rfl (by omega)
  · intro oc na hna hnd
    constructor
    · rw [FactSetClient.fetch_ticker]
      unfold factsetLoop
      rw [dif_pos (by omega : 0 < na), hnd]
    · rw [YFinanceClient.fetch_ticker]
      unfold yfinanceLoop
      rw [dif_pos (by omega : 0 < na), hnd]

/-- Concrete instantiation of `C8_amended_retry_exhaustion_and_auth`. -/
theorem C8_amended_retry_exhaustion_and_auth_witness :
    (FactSetClient.fetch_ticker (fun _ => .genericError) 3
        = .ok (some Frame.emptyFrame)
      ∧ YFinanceClient.fetch_ticker (fun _ => .genericError) 3
        = .ok (some Frame.emptyFrame))
    ∧ FactSetClient.fetch_ticker (fun a => if a = 0 then .authError
        else .genericError) 3 = .error ()
    ∧ (FactSetClient.fetch_ticker (fun _ => .noData) 3
        = .ok (some Frame.emptyFrame)
      ∧ YFinanceClient.fetch_ticker (fun _ => .noData) 3
        = .ok (some Frame.emptyFrame)) :=
  ⟨C8_amended_retry_exhaustion_and_auth.1 _ 3 (by omega) (fun a _ => rfl),
   C8_amended_retry_exhaustion_and_auth.2.1 _ 3 0 (by omega)
     (fun a ha => absurd ha (by omega)) rfl,
   C8_amended_retry_exhaustion_and_auth.2.2 _ 3 (by omega) rfl⟩
